import Mathlib

/-!
Verification development for the `4uffin/web-crawler` repository
(`src/crawler.py`), a polite bounded asynchronous web crawler.

The Python source is shallowly embedded below:

* pure helpers (`is_valid`, `clean_and_summarize`) become pure Lean
  functions over a tree model of parsed HTML documents;
* the stdlib collaborators actually exercised by the crawler
  (`urllib.parse.urlparse`/`urljoin`, `urllib.robotparser.RobotFileParser`,
  BeautifulSoup's `find`/`find_all`/`decompose`/`get_text`) are embedded
  as faithful fragments covering the inputs the crawler feeds them;
* the async `crawl` coroutine is split into its atomic segments (the
  maximal synchronous stretches between `await` points: the robots.txt
  GET, `asyncio.sleep`, and the page GET), giving a small-step
  interleaving semantics over an explicit engine state.  A schedule —
  a list of (task id, wall-clock time) pairs — picks which suspended
  task resumes next, modelling the single-threaded cooperative
  concurrency of asyncio; resume times are clamped to be no earlier
  than the global clock and the task's wake-up time;
* `run_crawler`'s batch loop is embedded with explicit fuel.

Network responses are supplied by a `Web` oracle (page bodies already
parsed into the document tree model).  Wall-clock time is modelled in
whole seconds by naturals and starts at 1 (a real `time.time()` value is
never 0, which matters for `RobotFileParser.last_checked`).
-/

set_option maxRecDepth 8000

namespace Crawler

/-! ### String helpers (fragments of the Python `str` methods used)

They are written over `List Char` so that concrete executions reduce
inside the kernel. -/

/-- Split a character list at the first occurrence of `sep`:
`some (before, after)` when `sep` occurs, `none` otherwise. -/
def breakOn (sep : List Char) : List Char → Option (List Char × List Char)
  | [] => if sep.isEmpty then some ([], []) else none
  | c :: cs =>
    if sep.isPrefixOf (c :: cs) then some ([], (c :: cs).drop sep.length)
    else (breakOn sep cs).map (fun q => (c :: q.1, q.2))

/-- Substring test: Python's `needle in hay` for a non-empty needle. -/
def containsSub (hay needle : String) : Bool := (breakOn needle.data hay.data).isSome

/-- Python `s.endswith(suffix)`. -/
def strEndsWith (s suffix : String) : Bool :=
  suffix.data.reverse.isPrefixOf s.data.reverse

/-- Python `s.startswith(prefix)`. -/
def strStartsWith (s pre : String) : Bool := pre.data.isPrefixOf s.data

/-- Python `s.lower()` (ASCII fragment). -/
def strLower (s : String) : String := ⟨s.data.map Char.toLower⟩

/-- Python `s.strip()`: drop leading and trailing whitespace. -/
def strStrip (s : String) : String :=
  ⟨((s.data.dropWhile Char.isWhitespace).reverse.dropWhile Char.isWhitespace).reverse⟩

/-- Characters of `s` before the first occurrence of `c`
(all of `s` when `c` does not occur): `s.split(c)[0]`. -/
def takeUntilChar (s : String) (c : Char) : String := ⟨s.data.takeWhile (fun d => d ≠ c)⟩

/-- Python `s.split(sep, 1)` as a pair: the whole string when `sep` is
absent. -/
def splitFirst (s sep : String) : String × Option String :=
  match breakOn sep.data s.data with
  | none => (s, none)
  | some (a, b) => (⟨a⟩, some ⟨b⟩)

/-! ### URL model

Fragment of `urllib.parse.urlparse` / `urljoin` covering the URL shapes
the crawler manipulates: absolute `http(s)://host/path` URLs,
protocol-relative (`//host/path`), root-relative (`/path`) and plain
relative (`path`) references without `.`/`..` segments.  Query and
fragment parts are split off the path as `urlparse` does. -/

structure ParsedUrl where
  scheme : String
  netloc : String
  path : String
deriving Repr, DecidableEq

/-- Drop a query string and fragment from a path, as `urlparse` does. -/
def stripQueryFragment (s : String) : String :=
  takeUntilChar (takeUntilChar s '?') '#'

/-- Fragment of `urllib.parse.urlparse`: split an absolute URL into
scheme, netloc and path.  A reference with no `://` is treated as
scheme-less (scheme and netloc empty), as `urlparse` does for the
relative references the crawler tests with `is_valid`. -/
def urlparse (u : String) : ParsedUrl :=
  match splitFirst u "://" with
  | (_, none) => ⟨"", "", stripQueryFragment u⟩
  | (scheme, some rest) =>
    let netloc := takeUntilChar rest '/'
    let path : String := ⟨rest.data.drop netloc.data.length⟩
    ⟨strLower scheme, stripQueryFragment netloc, stripQueryFragment path⟩

/-- Directory part of a path: everything up to and including the last
slash (`/` when the path has no slash). -/
def dirPart (p : String) : String :=
  match p.data.reverse.dropWhile (fun c => c ≠ '/') with
  | [] => "/"
  | r => ⟨r.reverse⟩

/-- Fragment of `urllib.parse.urljoin` covering the reference shapes
above: an absolute reference wins, `//h/p` keeps the base scheme,
`/p` keeps scheme and host, and a plain relative reference replaces the
last segment of the base path. -/
def urljoin (base href : String) : String :=
  if href = "" then base
  else if containsSub href "://" then href
  else
    let b := urlparse base
    if strStartsWith href "//" then b.scheme ++ ":" ++ href
    else if strStartsWith href "/" then b.scheme ++ "://" ++ b.netloc ++ href
    else b.scheme ++ "://" ++ b.netloc ++ dirPart b.path ++ href

/-! ### Configuration

The module-level configuration constants of `crawler.py` (lines 11–33).
They are gathered into a structure so that runs with small limits can be
examined; `defaultConfig` carries the values of the source. -/

structure Config where
  targetRoot : String
  userAgent : String
  maxPages : Nat
  maxDepth : Nat
  snippetLength : Nat
  minDelaySeconds : Nat
  ignoredExtensions : List String
deriving Repr, DecidableEq

/-- `TARGET_DOMAIN = urlparse(TARGET_ROOT).netloc` (line 15). -/
def targetDomain (cfg : Config) : String := (urlparse cfg.targetRoot).netloc

/-- The constants of crawler.py lines 14–33 (with the default
`CRAWLER_TARGET_URL`). -/
def defaultConfig : Config :=
  { targetRoot := "https://www.wikipedia.org/"
    userAgent := "Mozilla/5.0 (compatible; MyCustomCrawler/1.0; +http://github.com/4uffin/web-crawler)"
    maxPages := 1000
    maxDepth := 50
    snippetLength := 200
    minDelaySeconds := 2
    ignoredExtensions := [".pdf", ".jpg", ".jpeg", ".png", ".gif", ".zip", ".rar",
      ".mp4", ".mp3", ".txt", ".xml", ".atom", ".rss", ".css", ".js", ".ico"] }

/-- `is_valid` (crawler.py lines 45–64): scheme must be http/https, the
lowercased path must not end with an ignored extension, and the netloc
must equal the target domain exactly. -/
def is_valid (cfg : Config) (url : String) : Bool :=
  let parsed := urlparse url
  if ¬ (parsed.scheme = "http" ∨ parsed.scheme = "https") then false
  else if cfg.ignoredExtensions.any (fun e => strEndsWith (strLower parsed.path) e) then false
  else if parsed.netloc ≠ targetDomain cfg then false
  else true

/-! ### Parsed HTML documents

A parsed document (BeautifulSoup object) is a tree of element and text
nodes; `find` returns the first match in document (preorder) order,
`find_all` all matches, `decompose` removes a subtree in place.  The
whole soup is the root node. -/

inductive Node where
  | text : String → Node
  | elem : (tag : String) → (attrs : List (String × String)) → (children : List Node) → Node

/-- First value bound to an attribute name (`tag['k']` / `'k' in tag.attrs`). -/
def attrGet (attrs : List (String × String)) (k : String) : Option String :=
  (attrs.find? (fun p => p.1 = k)).map (fun p => p.2)

mutual

/-- BeautifulSoup `find`: first node in document (preorder) order
satisfying `p`, the node itself considered first. -/
def findFirstNode (p : Node → Bool) : Node → Option Node
  | .text s => if p (.text s) then some (.text s) else none
  | .elem t a c => if p (.elem t a c) then some (.elem t a c) else findFirstList p c
termination_by structural n => n

/-- `findFirstNode` over a forest, leftmost match first. -/
def findFirstList (p : Node → Bool) : List Node → Option Node
  | [] => none
  | n :: ns =>
    match findFirstNode p n with
    | some r => some r
    | none => findFirstList p ns
termination_by structural l => l

end

mutual

/-- Net effect of `for tag in block([...noise...]): tag.decompose()`:
every descendant subtree rooted at a noise tag is removed (the root
itself is kept; the crawler only strips inside `main`/`article`/
`section`/`body` blocks, which are never noise tags). -/
def stripNode (noise : List String) : Node → Node
  | .text s => .text s
  | .elem t a c => .elem t a (stripList noise c)
termination_by structural n => n

/-- `stripNode` over a forest: drop noise-rooted trees, recurse in the rest. -/
def stripList (noise : List String) : List Node → List Node
  | [] => []
  | .text s :: ns => .text s :: stripList noise ns
  | .elem t a c :: ns =>
    if noise.contains t then stripList noise ns
    else stripNode noise (.elem t a c) :: stripList noise ns
termination_by structural l => l

end

mutual

/-- All text node contents of a subtree, in document order. -/
def textsNode : Node → List String
  | .text s => [s]
  | .elem _ _ c => textsList c
termination_by structural n => n

/-- `textsNode` over a forest. -/
def textsList : List Node → List String
  | [] => []
  | n :: ns => textsNode n ++ textsList ns
termination_by structural l => l

end

/-- `get_text(separator=' ', strip=True)`: stripped non-empty text
fragments joined by single spaces. -/
def getTextStrip (n : Node) : String :=
  " ".intercalate (((textsNode n).map strStrip).filter (fun s => s ≠ ""))

/-- `.text` (`get_text()` with no arguments): raw concatenation of all
text fragments. -/
def getTextRaw (n : Node) : String := String.join (textsNode n)

mutual

/-- `soup.find_all('a', href=True)`: `href` values of all anchor
elements carrying the attribute, in document order. -/
def linkHrefsNode : Node → List String
  | .text _ => []
  | .elem t a c =>
    (if t = "a" then
      match attrGet a "href" with
      | some h => [h]
      | none => []
     else []) ++ linkHrefsList c
termination_by structural n => n

/-- `linkHrefsNode` over a forest. -/
def linkHrefsList : List Node → List String
  | [] => []
  | n :: ns => linkHrefsNode n ++ linkHrefsList ns
termination_by structural l => l

end

/-! ### Content extraction (`clean_and_summarize`, lines 66–103) -/

/-- The noisy tags removed from the searchable block (line 87). -/
def noiseTags : List String := ["script", "style", "nav", "header", "footer", "form"]

/-- Predicate of `soup.find(['main','article','section'],
role=['main','article'])` (line 76): tag in the list and a `role`
attribute whose value is in the list. -/
def isBlockTag : Node → Bool
  | .elem t a _ =>
    (t = "main" ∨ t = "article" ∨ t = "section") ∧
      (attrGet a "role" = some "main" ∨ attrGet a "role" = some "article")
  | _ => false

/-- Predicate of `soup.body`. -/
def isBodyTag : Node → Bool
  | .elem t _ _ => t = "body"
  | _ => false

/-- Predicate of `soup.find('title')`. -/
def isTitleTag : Node → Bool
  | .elem t _ _ => t = "title"
  | _ => false

/-- Predicate of `soup.find('meta', attrs={'name': 'description'})`. -/
def isMetaDesc : Node → Bool
  | .elem t a _ => t = "meta" ∧ attrGet a "name" = some "description"
  | _ => false

/-- Predicate of `soup.find('link', rel='canonical', href=True)`
(single-token `rel` values). -/
def isCanonical : Node → Bool
  | .elem t a _ => t = "link" ∧ attrGet a "rel" = some "canonical" ∧ (attrGet a "href").isSome
  | _ => false

/-- Value of the `content` attribute of the first description `meta`
element, when that element exists and carries the attribute
(`description_tag and 'content' in description_tag.attrs`, line 96). -/
def metaDescContent (soup : Node) : Option String :=
  match findFirstNode isMetaDesc soup with
  | some (.elem _ a _) => attrGet a "content"
  | _ => none

/-- `href` of the first `link rel="canonical"` element with an `href`
attribute, if any (line 191). -/
def canonicalHrefOf (soup : Node) : Option String :=
  match findFirstNode isCanonical soup with
  | some (.elem _ a _) => attrGet a "href"
  | _ => none

structure Extracted where
  title : String
  content : String
  snippet : String
deriving Repr, DecidableEq

mutual

/-- In-place `decompose` inside the first `p`-matching subtree: the
document with that subtree replaced by `f` of it (identity when no node
matches). -/
def replaceFirstNode (p : Node → Bool) (f : Node → Node) (n : Node) : Node :=
  if p n then f n
  else
    match n with
    | .text s => .text s
    | .elem t a c => .elem t a (replaceFirstList p f c)
termination_by structural n

/-- `replaceFirstNode` over a forest: rewrite inside the first tree
containing a match, keep the rest. -/
def replaceFirstList (p : Node → Bool) (f : Node → Node) : List Node → List Node
  | [] => []
  | n :: ns =>
    if (findFirstNode p n).isSome then replaceFirstNode p f n :: ns
    else n :: replaceFirstList p f ns
termination_by structural l => l

end

/-- `clean_and_summarize(soup)` (lines 66–103).  Returns the extracted
`(title, content, snippet)` triple together with the document left
behind: the function mutates its argument by decomposing noisy tags
inside the selected searchable block (lines 87–88), and the snippet's
`meta` lookup (line 94) as well as the caller's later link discovery
run on that mutated document. -/
def clean_and_summarize (cfg : Config) (soup : Node) : Extracted × Node :=
  let title :=
    match findFirstNode isTitleTag soup with
    | some t => strStrip (getTextRaw t)
    | none => "Untitled Page"
  let mainContentTags := findFirstNode isBlockTag soup
  let searchableBlock :=
    match mainContentTags with
    | some b => some b
    | none => findFirstNode isBodyTag soup
  let content :=
    match searchableBlock with
    | none => ""
    | some b => getTextStrip (stripNode noiseTags b)
  let soup1 :=
    match searchableBlock with
    | none => soup
    | some _ =>
      match mainContentTags with
      | some _ => replaceFirstNode isBlockTag (stripNode noiseTags) soup
      | none => replaceFirstNode isBodyTag (stripNode noiseTags) soup
  let snippet :=
    match metaDescContent soup1 with
    | some c => strStrip c
    | none =>
      let s := strStrip ⟨content.data.take cfg.snippetLength⟩
      if content.data.length > cfg.snippetLength then s ++ "..." else s
  (⟨title, content, snippet⟩, soup1)

/-! ### Robots policy (`urllib.robotparser.RobotFileParser`)

Fragment of CPython's `RobotFileParser` covering what the crawler
exercises: `parse` over `user-agent` / `disallow` / `allow` lines (plus
the state transitions of `crawl-delay` / `request-rate`), and
`can_fetch`.  Percent-quoting is omitted (identity on the plain ASCII
paths involved).  The crucial behavior for the crawler: a parser on
which `parse` was never called has `last_checked = 0` and `can_fetch`
returns `False` for every URL. -/

structure RuleLine where
  path : String
  allowance : Bool
deriving Repr, DecidableEq

/-- `RuleLine.__init__`: an empty disallow value means allow all. -/
def mkRuleLine (path : String) (allowance : Bool) : RuleLine :=
  if path = "" ∧ ¬ allowance then ⟨path, true⟩ else ⟨path, allowance⟩

/-- `RuleLine.applies_to`. -/
def RuleLine.appliesTo (r : RuleLine) (filename : String) : Bool :=
  r.path = "*" ∨ strStartsWith filename r.path

structure RobotsEntry where
  useragents : List String
  rulelines : List RuleLine
deriving Repr, DecidableEq

def RobotsEntry.empty : RobotsEntry := ⟨[], []⟩

/-- `Entry.applies_to`: the agent name before the first `/`, lowercased;
an entry matches on the catch-all `*` or on a substring hit. -/
def RobotsEntry.appliesTo (e : RobotsEntry) (useragent : String) : Bool :=
  let ua := strLower (takeUntilChar useragent '/')
  e.useragents.any (fun agent => agent = "*" ∨ containsSub ua (strLower agent))

/-- `Entry.allowance`: the first applicable rule decides; no rule means
allowed. -/
def RobotsEntry.allowance (e : RobotsEntry) (filename : String) : Bool :=
  match e.rulelines.find? (fun l => l.appliesTo filename) with
  | some l => l.allowance
  | none => true

structure RobotFileParser where
  entries : List RobotsEntry
  defaultEntry : Option RobotsEntry
  disallowAll : Bool
  allowAll : Bool
  lastChecked : Nat
deriving Repr, DecidableEq

/-- `RobotFileParser()` as constructed at crawler.py line 111: nothing
read yet, `last_checked = 0`. -/
def RobotFileParser.init : RobotFileParser := ⟨[], none, false, false, 0⟩

/-- `RobotFileParser._add_entry`. -/
def RobotFileParser.addEntry (p : RobotFileParser) (e : RobotsEntry) : RobotFileParser :=
  if e.useragents.contains "*" then
    match p.defaultEntry with
    | none => { p with defaultEntry := some e }
    | some _ => p
  else { p with entries := p.entries ++ [e] }

/-- One iteration of the `parse` line loop, on parser state
`(state, entry, acc)`. -/
def robotsParseLine (st : Nat × RobotsEntry × RobotFileParser) (line : String) :
    Nat × RobotsEntry × RobotFileParser :=
  let (state, entry, acc) := st
  let (state, entry, acc) :=
    if line = "" then
      if state = 1 then (0, RobotsEntry.empty, acc)
      else if state = 2 then (0, RobotsEntry.empty, acc.addEntry entry)
      else (state, entry, acc)
    else (state, entry, acc)
  let line := (splitFirst line "#").1
  let line := strStrip line
  if line = "" then (state, entry, acc)
  else
    match splitFirst line ":" with
    | (_, none) => (state, entry, acc)
    | (k, some v) =>
      let key := strLower (strStrip k)
      let val := strStrip v
      if key = "user-agent" then
        let (entry, acc) :=
          if state = 2 then (RobotsEntry.empty, acc.addEntry entry) else (entry, acc)
        (1, { entry with useragents := entry.useragents ++ [val] }, acc)
      else if key = "disallow" then
        if state ≠ 0 then
          (2, { entry with rulelines := entry.rulelines ++ [mkRuleLine val false] }, acc)
        else (state, entry, acc)
      else if key = "allow" then
        if state ≠ 0 then
          (2, { entry with rulelines := entry.rulelines ++ [mkRuleLine val true] }, acc)
        else (state, entry, acc)
      else if key = "crawl-delay" ∨ key = "request-rate" then
        if state ≠ 0 then (2, entry, acc) else (state, entry, acc)
      else (state, entry, acc)

/-- `RobotFileParser.parse(lines)` at wall-clock time `t` (`modified()`
records the fetch time, here any positive number). -/
def RobotFileParser.parse (p : RobotFileParser) (lines : List String) (t : Nat) :
    RobotFileParser :=
  let st := lines.foldl robotsParseLine (0, RobotsEntry.empty, { p with lastChecked := t })
  if st.1 = 2 then st.2.2.addEntry st.2.1 else st.2.2

/-- `RobotFileParser.can_fetch(useragent, url)`. -/
def RobotFileParser.canFetch (p : RobotFileParser) (useragent url : String) : Bool :=
  if p.disallowAll then false
  else if p.allowAll then true
  else if p.lastChecked = 0 then false
  else
    let pu := urlparse url
    let filename := if pu.path = "" then "/" else pu.path
    match p.entries.find? (fun e => e.appliesTo useragent) with
    | some e => e.allowance filename
    | none =>
      match p.defaultEntry with
      | some e => e.allowance filename
      | none => true

/-! ### Network oracle -/

/-- Outcome of `client.get(robots_url, timeout=5)` (crawler.py line
116): an exception, or a response with a status code and
`text.splitlines()`. -/
inductive RobotsFetchResult where
  | failure : RobotsFetchResult
  | response : (status : Nat) → (body : List String) → RobotsFetchResult

/-- Outcome of `client.get(url, follow_redirects=True, timeout=10)`
followed by `raise_for_status()` (lines 179–180): `failure` covers any
`httpx.HTTPError` (transport error or non-2xx status); `ok` carries the
`Content-Type` header and the parsed body. -/
inductive FetchResult where
  | failure : FetchResult
  | ok : (contentType : String) → (doc : Node) → FetchResult

/-- The network, fixed for a run: a page response per URL and a
robots.txt response per host. -/
structure Web where
  page : String → FetchResult
  robots : String → RobotsFetchResult

/-- Parser produced by `fetch_robots_txt`'s try block (lines 114–124)
once the robots GET has resolved at time `t`: the body is parsed only
on status 200; on any other status or on an exception the freshly
constructed (never-parsed) parser is kept. -/
def robotsParserOf (res : RobotsFetchResult) (t : Nat) : RobotFileParser :=
  match res with
  | .failure => RobotFileParser.init
  | .response status body =>
    if status = 200 then RobotFileParser.init.parse body t else RobotFileParser.init
/-! ### Engine state

The global mutable state of crawler.py (lines 35–43) plus two pure
observation logs (issued page fetches and dequeued frontier entries)
and the wall clock.  Python sets are modelled as duplicate-free lists
with guarded insertion. -/

structure PageRecord where
  id : String
  title : String
  content : String
  url : String
  snippet : String
deriving Repr, DecidableEq

/-- `set.add` for URL sets. -/
def setInsert (l : List String) (u : String) : List String :=
  if u ∈ l then l else l ++ [u]

/-- `set.add` for the `(url, depth)` frontier set. -/
def pairInsert (l : List (String × Nat)) (e : String × Nat) : List (String × Nat) :=
  if e ∈ l then l else l ++ [e]

/-- First value bound to a key in an association list (`dict.get`). -/
def assocGet {α : Type} (l : List (String × α)) (k : String) : Option α :=
  (l.find? (fun p => p.1 = k)).map (fun p => p.2)

/-- `dict[k] = v`: replace the first binding or append a new one. -/
def assocSet {α : Type} (l : List (String × α)) (k : String) (v : α) : List (String × α) :=
  match l with
  | [] => [(k, v)]
  | (k1, v1) :: rest =>
    if k1 = k then (k, v) :: rest else (k1, v1) :: assocSet rest k v

structure Engine where
  toCrawlQueue : List (String × Nat)
  crawledUrls : List String
  indexData : List PageRecord
  robotsCache : List (String × RobotFileParser)
  hostLastRequestTime : List (String × Nat)
  fetchLog : List (String × String × Nat)
  dequeueLog : List (String × Nat)
  clock : Nat
deriving Repr, DecidableEq

/-- A `crawl(url, depth, client)` task, as created by the batch loop
(line 254), with its suspension point and earliest resume time. -/
inductive TaskPC where
  | start : TaskPC
  | robotsWait : TaskPC
  | sleepWait : TaskPC
  | pageWait : TaskPC
  | finished : TaskPC
deriving Repr, DecidableEq

structure TaskState where
  url : String
  depth : Nat
  pc : TaskPC
  wake : Nat
deriving Repr, DecidableEq

/-- `USER_AGENT.split('/')[0]` (line 156). -/
def userAgentToken (cfg : Config) : String := takeUntilChar cfg.userAgent '/'

/-! ### The `crawl` pipeline, one atomic segment per suspension point

`crawl` (lines 128–229) runs synchronously except at three `await`
points: the robots.txt GET inside `fetch_robots_txt` (taken only when
the host is not yet cached), `asyncio.sleep` (taken only when the
rate-limit interval has not elapsed), and the page GET (always).  Each
segment below is the code between two such points, acting on the shared
engine and the task's own state at wall-clock time `t`. -/

/-- Lines 171–175 and the issue of the page GET (line 179): record the
host's last-request timestamp, mark the URL visited, and issue the
fetch.  Runs directly after the rate-limit check when no sleep was
needed, and as the resume segment after `asyncio.sleep` otherwise. -/
def issueFetch (_cfg : Config) (t : Nat) (eng : Engine) (tk : TaskState) :
    Engine × TaskState :=
  let host := (urlparse tk.url).netloc
  ({ eng with
      hostLastRequestTime := assocSet eng.hostLastRequestTime host t
      crawledUrls := setInsert eng.crawledUrls tk.url
      fetchLog := eng.fetchLog ++ [(tk.url, host, t)] },
   { tk with pc := .pageWait, wake := t })

/-- Lines 161–175: the rate-limit check.  When the elapsed time since
the host's last request is below the minimum the task suspends in
`asyncio.sleep` for the remainder (the timestamp is written only after
the sleep); otherwise it proceeds to `issueFetch` at once. -/
def rateAndFetch (cfg : Config) (t : Nat) (eng : Engine) (tk : TaskState) :
    Engine × TaskState :=
  let host := (urlparse tk.url).netloc
  let lastRequest := (assocGet eng.hostLastRequestTime host).getD 0
  let elapsed := t - lastRequest
  if elapsed < cfg.minDelaySeconds then
    let delay := cfg.minDelaySeconds - elapsed
    (eng, { tk with pc := .sleepWait, wake := t + delay })
  else issueFetch cfg t eng tk

/-- Lines 156–175 with the robots parser in hand: the robots check (a
denied URL is marked visited and the task ends, line 158) followed by
the rate-limit section. -/
def afterRobots (cfg : Config) (parser : RobotFileParser) (t : Nat) (eng : Engine)
    (tk : TaskState) : Engine × TaskState :=
  if ¬ parser.canFetch (userAgentToken cfg) tk.url then
    ({ eng with crawledUrls := setInsert eng.crawledUrls tk.url },
     { tk with pc := .finished })
  else rateAndFetch cfg t eng tk

/-- Lines 134–169, the segment from the top of `crawl` to the first
suspension: the page/visited/depth checks, then `fetch_robots_txt`,
which returns synchronously on a cache hit and otherwise suspends in
the robots GET (the cache is written only when the response arrives). -/
def startSeg (cfg : Config) (t : Nat) (eng : Engine) (tk : TaskState) :
    Engine × TaskState :=
  if eng.crawledUrls.length ≥ cfg.maxPages then (eng, { tk with pc := .finished })
  else if tk.url ∈ eng.crawledUrls then (eng, { tk with pc := .finished })
  else if tk.depth > cfg.maxDepth then (eng, { tk with pc := .finished })
  else
    let host := (urlparse tk.url).netloc
    match assocGet eng.robotsCache host with
    | some parser => afterRobots cfg parser t eng tk
    | none => (eng, { tk with pc := .robotsWait, wake := t })

/-- Resume segment of the robots GET (lines 116–124 then 156 onwards):
build the parser from the response, cache it unconditionally, and
continue with the robots and rate-limit checks. -/
def robotsResume (cfg : Config) (web : Web) (t : Nat) (eng : Engine) (tk : TaskState) :
    Engine × TaskState :=
  let host := (urlparse tk.url).netloc
  let parser := robotsParserOf (web.robots host) t
  afterRobots cfg parser t { eng with robotsCache := assocSet eng.robotsCache host parser } tk

/-- Lines 213–224: resolve each discovered `href` against the page URL
and enqueue it when it passes `is_valid`, is unvisited and the new
depth respects `MAX_DEPTH`. -/
def processLinks (cfg : Config) (url : String) (depth : Nat) (hrefs : List String)
    (eng : Engine) : Engine :=
  hrefs.foldl
    (fun eng href =>
      let absoluteUrl := urljoin url href
      if is_valid cfg absoluteUrl then
        let newDepth := depth + 1
        if absoluteUrl ∉ eng.crawledUrls ∧ newDepth ≤ cfg.maxDepth then
          { eng with toCrawlQueue := pairInsert eng.toCrawlQueue (absoluteUrl, newDepth) }
        else eng
      else eng)
    eng

/-- Resume segment of the page GET (lines 179–229): error and
content-type handling, the canonical-duplicate check (which `return`s
before extraction, record emission and link discovery), extraction, the
record append, and link discovery on the mutated document. -/
def pageResume (cfg : Config) (web : Web) (eng : Engine) (tk : TaskState) :
    Engine × TaskState :=
  let done := { tk with pc := TaskPC.finished }
  match web.page tk.url with
  | .failure => (eng, done)
  | .ok contentType doc =>
    if ¬ containsSub (strLower contentType) "text/html" then (eng, done)
    else
      let dup : Bool :=
        match canonicalHrefOf doc with
        | some href => href != tk.url && decide (urljoin tk.url href ∈ eng.crawledUrls)
        | none => false
      if dup then (eng, done)
      else
        let (ex, soup1) := clean_and_summarize cfg doc
        let eng := { eng with
          indexData := eng.indexData ++ [⟨tk.url, ex.title, ex.content, tk.url, ex.snippet⟩] }
        (processLinks cfg tk.url tk.depth (linkHrefsNode soup1) eng, done)

/-- One scheduler step: run the task's next segment at wall-clock time
`t`, clamped so that time never runs backwards and a sleeping task is
not resumed before its wake-up time.  A finished task leaves the state
unchanged (apart from the clock). -/
def stepPair (cfg : Config) (web : Web) (t : Nat) (eng : Engine) (tk : TaskState) :
    Engine × TaskState :=
  let t := max t (max eng.clock tk.wake)
  let (eng1, tk1) :=
    match tk.pc with
    | .start => startSeg cfg t eng tk
    | .robotsWait => robotsResume cfg web t eng tk
    | .sleepWait => issueFetch cfg t eng tk
    | .pageWait => pageResume cfg web eng tk
    | .finished => (eng, tk)
  ({ eng1 with clock := t }, tk1)

/-! ### Interleaved execution of a batch (`asyncio.gather`) -/

structure RunState where
  eng : Engine
  tasks : List TaskState
deriving Repr, DecidableEq

/-- Run one scheduled step: task `tid` resumes at time `t`. -/
def stepTask (cfg : Config) (web : Web) (st : RunState) (tid t : Nat) : RunState :=
  match st.tasks[tid]? with
  | none => st
  | some tk =>
    let (eng, tk1) := stepPair cfg web t st.eng tk
    { eng := eng, tasks := st.tasks.set tid tk1 }

/-- Run a whole schedule, a list of `(task id, time)` resume events.
Any schedule describes a cooperative interleaving that asyncio could
produce (response arrival order and latencies are up to the network);
schedules that stop early model an execution observed mid-batch. -/
def runTrace (cfg : Config) (web : Web) (st : RunState) : List (Nat × Nat) → RunState
  | [] => st
  | (tid, t) :: rest => runTrace cfg web (stepTask cfg web st tid t) rest

/-- Fresh tasks for the entries of one batch. -/
def mkTasks (items : List (String × Nat)) : List TaskState :=
  items.map (fun e => ⟨e.1, e.2, .start, 0⟩)

/-! ### Sequential execution

`stepsPair` runs one task for several consecutive steps with nothing
interleaved; four steps always drive a task from `start` to
`finished`.  `crawlSeq` is therefore the whole `crawl` pipeline run
without interference — the behavior the specification describes — and
`runTasksSeq` processes entries strictly one after another. -/

def stepsPair (cfg : Config) (web : Web) : List Nat → Engine × TaskState → Engine × TaskState
  | [], p => p
  | t :: ts, p => stepsPair cfg web ts (stepPair cfg web t p.1 p.2)

/-- One `crawl(url, depth)` run to completion, its successive segments
executed at (clamped) times `t1 ≤ t2 ≤ t3 ≤ t4`. -/
def crawlSeq (cfg : Config) (web : Web) (eng : Engine) (url : String) (depth : Nat)
    (t1 t2 t3 t4 : Nat) : Engine :=
  (stepsPair cfg web [t1, t2, t3, t4] (eng, ⟨url, depth, .start, 0⟩)).1

/-- Entries processed strictly sequentially, each with its own resume
times. -/
def runTasksSeq (cfg : Config) (web : Web) :
    List ((String × Nat) × Nat × Nat × Nat × Nat) → Engine → Engine
  | [], eng => eng
  | (e, t1, t2, t3, t4) :: rest, eng =>
    runTasksSeq cfg web rest (crawlSeq cfg web eng e.1 e.2 t1 t2 t3 t4)

/-! ### The batch loop (`run_crawler`, lines 232–265) -/

/-- Initial global state (lines 35–43): the frontier holds the seed at
depth 0.  The clock starts at 1: wall-clock seconds, never 0. -/
def initialEngine (cfg : Config) : Engine :=
  { toCrawlQueue := [(cfg.targetRoot, 0)]
    crawledUrls := []
    indexData := []
    robotsCache := []
    hostLastRequestTime := []
    fetchLog := []
    dequeueLog := []
    clock := 1 }

/-- The `while current_queue and len(crawled_urls) < MAX_PAGES` loop:
take a batch of five entries, run its tasks under the batch's schedule
(`asyncio.gather`), then merge the frontier entries not already queued
back into the working list and rebuild the frontier set from it
(lines 245–265).  `fuel` bounds the number of iterations; each batch
consumes one schedule from `scheds`. -/
def runBatchLoop (cfg : Config) (web : Web) :
    Nat → List (String × Nat) → Engine → List (List (Nat × Nat)) → Engine
  | 0, _, eng, _ => eng
  | fuel + 1, currentQueue, eng, scheds =>
    if currentQueue.isEmpty ∨ eng.crawledUrls.length ≥ cfg.maxPages then eng
    else
      let batchItems := currentQueue.take 5
      let rest := currentQueue.drop 5
      let eng := { eng with dequeueLog := eng.dequeueLog ++ batchItems }
      let st := runTrace cfg web ⟨eng, mkTasks batchItems⟩ (scheds.headD [])
      let newLinks := st.eng.toCrawlQueue.filter (fun item => item ∉ rest)
      let currentQueue := rest ++ newLinks
      let eng := { st.eng with toCrawlQueue := currentQueue }
      runBatchLoop cfg web fuel currentQueue eng (scheds.tailD [])

/-- `run_crawler()`: the loop started on the seed frontier. -/
def run_crawler (cfg : Config) (web : Web) (fuel : Nat)
    (scheds : List (List (Nat × Nat))) : Engine :=
  runBatchLoop cfg web fuel (initialEngine cfg).toCrawlQueue (initialEngine cfg) scheds


/-! ### Concrete scenarios

Small closed scenarios over a host `h`, used to evaluate the model on
complete runs. -/

/-- A configuration scoped to host `h`, with the source's limits. -/
def hostConfig : Config :=
  { targetRoot := "http://h/"
    userAgent := "M/1.0"
    maxPages := 1000
    maxDepth := 50
    snippetLength := 200
    minDelaySeconds := 2
    ignoredExtensions := defaultConfig.ignoredExtensions }

/-- A network where every robots.txt is an empty 200 response (an empty
robots body allows every agent) and every page is empty HTML. -/
def plainWeb : Web :=
  { page := fun _ => .ok "text/html" (.elem "html" [] [])
    robots := fun _ => .response 200 [] }

/-- `hostConfig` with a page limit of 2. -/
def limitConfig : Config := { hostConfig with maxPages := 2 }

/-- The root page of `h` links to `/b` and `/c`; every other page is
empty HTML. -/
def limitWeb : Web :=
  { page := fun u =>
      if u = "http://h/" then
        .ok "text/html" (.elem "html" [] [ .elem "body" [] [
          .elem "a" [("href", "/b")] [ .text "b" ],
          .elem "a" [("href", "/c")] [ .text "c" ] ] ])
      else .ok "text/html" (.elem "html" [] [])
    robots := fun _ => .response 200 [] }

/-- `hostConfig` seeded at `http://h/A`. -/
def canonConfig : Config := { hostConfig with targetRoot := "http://h/A" }

/-- Page `/A` links to `/B`; page `/B` declares canonical `/A` and links
to `/C`. -/
def canonWeb : Web :=
  { page := fun u =>
      if u = "http://h/A" then
        .ok "text/html" (.elem "html" [] [ .elem "body" [] [
          .elem "a" [("href", "/B")] [ .text "B" ] ] ])
      else if u = "http://h/B" then
        .ok "text/html" (.elem "html" [] [
          .elem "head" [] [ .elem "link" [("rel", "canonical"), ("href", "/A")] [] ],
          .elem "body" [] [ .elem "a" [("href", "/C")] [ .text "C" ] ] ])
      else .failure
    robots := fun _ => .response 200 [] }

/-- A page with a description meta whose `content` attribute is the
empty string, and body text `hello`. -/
def emptyDescDoc : Node :=
  .elem "[document]" [] [
    .elem "html" [] [
      .elem "head" [] [ .elem "meta" [("name", "description"), ("content", "")] [] ],
      .elem "body" [] [ .text "hello" ] ] ]

/-- A page with a description meta with content `x`. -/
def descDoc : Node :=
  .elem "[document]" [] [
    .elem "html" [] [
      .elem "head" [] [ .elem "meta" [("name", "description"), ("content", "x")] [] ],
      .elem "body" [] [ .text "hello" ] ] ]

/-- A page without any description meta. -/
def noDescDoc : Node :=
  .elem "[document]" [] [
    .elem "html" [] [ .elem "body" [] [ .text "hello" ] ] ]

/-- A page whose title element sits inside a form in the body: the first
extraction reads the title, then decomposes the form (removing the
title), so a second extraction differs. -/
def strippedTitleDoc : Node :=
  .elem "[document]" [] [
    .elem "html" [] [
      .elem "body" [] [
        .elem "form" [] [ .elem "title" [] [ .text "T" ] ],
        .text "hello" ] ] ]

/-- A page declaring canonical `/a`, textually different from its own
URL `http://h/a` but resolving to it. -/
def selfCanonDoc : Node :=
  .elem "html" [] [
    .elem "head" [] [ .elem "link" [("rel", "canonical"), ("href", "/a")] [] ],
    .elem "body" [] [ .text "hi" ] ]

/-- Network serving `selfCanonDoc` for every page. -/
def selfCanonWeb : Web :=
  { page := fun _ => .ok "text/html" selfCanonDoc
    robots := fun _ => .response 200 [] }

/-! ### Invariant predicates for the sequential guarantees -/

/-- Visited-set invariant tying issued fetches to `crawled_urls`: every
logged fetch's URL is marked visited, and no URL was fetched twice. -/
def fetchOnceInv (eng : Engine) : Prop :=
  (eng.fetchLog.map (fun e => e.1)).Nodup ∧
  (∀ e ∈ eng.fetchLog, e.1 ∈ eng.crawledUrls)

/-- In an undisturbed pipeline, a task suspended in the robots GET or in
the rate-limit sleep passed the visited check and its URL is not yet
marked. -/
def taskVisitInv (eng : Engine) (tk : TaskState) : Prop :=
  (tk.pc = .robotsWait ∨ tk.pc = .sleepWait) → tk.url ∉ eng.crawledUrls

/-- Chronological same-host spacing: any later fetch to the same host is
at least `d` seconds after any earlier one. -/
def sameHostSpaced (d : Nat) (log : List (String × String × Nat)) : Prop :=
  log.Pairwise (fun e1 e2 => e1.2.1 = e2.2.1 → e1.2.2 + d ≤ e2.2.2)

/-- Rate-limit invariant: the log is spaced, every logged fetch is no
later than its host's recorded last-request time, and all recorded
times are in the past. -/
def rateInv (cfg : Config) (eng : Engine) : Prop :=
  sameHostSpaced cfg.minDelaySeconds eng.fetchLog ∧
  (∀ e ∈ eng.fetchLog, ∃ v, assocGet eng.hostLastRequestTime e.2.1 = some v ∧ e.2.2 ≤ v) ∧
  (∀ p ∈ eng.hostLastRequestTime, p.2 ≤ eng.clock)

/-- In an undisturbed pipeline, a task sleeping in the rate limiter
wakes no earlier than the host's recorded time plus the minimum
interval. -/
def taskRateInv (cfg : Config) (eng : Engine) (tk : TaskState) : Prop :=
  tk.pc = .sleepWait →
    (assocGet eng.hostLastRequestTime (urlparse tk.url).netloc).getD 0 +
      cfg.minDelaySeconds ≤ tk.wake

/-- Page-limit invariant for sequential execution: the visited set never
exceeds `MAX_PAGES`. -/
def pagesInv (cfg : Config) (eng : Engine) : Prop :=
  eng.crawledUrls.length ≤ cfg.maxPages

/-- A task suspended past its limit check saw a visited set strictly
below the limit. -/
def taskPagesInv (cfg : Config) (eng : Engine) (tk : TaskState) : Prop :=
  (tk.pc = .robotsWait ∨ tk.pc = .sleepWait) →
    eng.crawledUrls.length < cfg.maxPages
/-! ### Elementary facts about the container helpers -/

/-- Generic queue/record/task invariant preserved by every trace step:
`P` holds of every queued URL-depth pair, every record's URL came from a
task, and every task's URL satisfies `W`. -/
def traceInv (_cfg : Config) (P : String × Nat → Prop) (W : String → Prop)
    (st : RunState) : Prop :=
  (∀ e ∈ st.eng.toCrawlQueue, P e) ∧
  (∀ e ∈ st.eng.dequeueLog, P e) ∧
  (∀ r ∈ st.eng.indexData, W r.url ∧ W r.id) ∧
  (∀ tk ∈ st.tasks, W tk.url)

theorem mem_setInsert_self (l : List String) (u : String) : u ∈ setInsert l u := by
  unfold setInsert
  split
  · assumption
  · simp

theorem mem_setInsert_of_mem {l : List String} {u : String} (v : String) (h : u ∈ l) :
    u ∈ setInsert l v := by
  unfold setInsert
  split
  · exact h
  · simp [h]

theorem setInsert_cases (l : List String) (u : String) :
    setInsert l u = l ∨ setInsert l u = l ++ [u] := by
  unfold setInsert
  split
  · exact Or.inl rfl
  · exact Or.inr rfl

theorem length_setInsert_le (l : List String) (u : String) :
    (setInsert l u).length ≤ l.length + 1 := by
  rcases setInsert_cases l u with h | h <;> simp [h]

theorem mem_of_mem_setInsert {l : List String} {u v : String}
    (h : u ∈ setInsert l v) : u ∈ l ∨ u = v := by
  unfold setInsert at h
  split at h
  · exact Or.inl h
  · simpa using h

theorem mem_pairInsert_of_mem {l : List (String × Nat)} {e : String × Nat}
    (f : String × Nat) (h : e ∈ l) : e ∈ pairInsert l f := by
  unfold pairInsert
  split
  · exact h
  · simp [h]

theorem mem_of_mem_pairInsert {l : List (String × Nat)} {e f : String × Nat}
    (h : e ∈ pairInsert l f) : e ∈ l ∨ e = f := by
  unfold pairInsert at h
  split at h
  · exact Or.inl h
  · simpa using h
theorem mem_assocSet {α : Type} {l : List (String × α)} {k : String} {v : α} :
    ∀ p ∈ assocSet l k v, p ∈ l ∨ p = (k, v) := by
  induction l with
  | nil =>
    intro p hp
    simp only [assocSet, List.mem_singleton] at hp
    exact Or.inr hp
  | cons q rest ih =>
    intro p hp
    simp only [assocSet] at hp
    split at hp
    · rcases List.mem_cons.mp hp with hp | hp
      · exact Or.inr hp
      · exact Or.inl (List.mem_cons_of_mem _ hp)
    · rcases List.mem_cons.mp hp with hp | hp
      · exact Or.inl (by simp [hp])
      · rcases ih p hp with h | h
        · exact Or.inl (List.mem_cons_of_mem _ h)
        · exact Or.inr h

theorem assocGet_assocSet_self {α : Type} (l : List (String × α)) (k : String) (v : α) :
    assocGet (assocSet l k v) k = some v := by
  induction l with
  | nil => simp [assocSet, assocGet]
  | cons q rest ih =>
    simp only [assocSet]
    split
    · simp [assocGet]
    · rename_i hq
      simp only [assocGet, List.find?] at ih ⊢
      rw [decide_eq_false hq]
      exact ih

theorem assocGet_assocSet_ne {α : Type} (l : List (String × α)) (k k1 : String) (v : α)
    (h : k1 ≠ k) : assocGet (assocSet l k v) k1 = assocGet l k1 := by
  induction l with
  | nil =>
    simp only [assocSet, assocGet, List.find?, decide_eq_false (Ne.symm h)]
  | cons q rest ih =>
    simp only [assocSet]
    split
    · rename_i hq
      simp only [assocGet, List.find?, decide_eq_false (Ne.symm h),
        decide_eq_false (show q.1 ≠ k1 by rw [hq]; exact Ne.symm h)]
    · by_cases hq1 : q.1 = k1
      · simp only [assocGet, List.find?, decide_eq_true hq1]
      · simp only [assocGet, List.find?, decide_eq_false hq1] at ih ⊢
        exact ih

theorem assocGet_mem {α : Type} {l : List (String × α)} {k : String} {v : α}
    (h : assocGet l k = some v) : (k, v) ∈ l := by
  induction l with
  | nil => simp [assocGet] at h
  | cons q rest ih =>
    by_cases hq : q.1 = k
    · simp only [assocGet, List.find?, decide_eq_true hq, Option.map_some'] at h
      have hv : q.2 = v := Option.some.inj h
      have hqv : q = (k, v) := by
        rcases q with ⟨a, b⟩
        simp only [Prod.mk.injEq]
        exact ⟨hq, hv⟩
      rw [← hqv]
      exact List.mem_cons_self _ _
    · simp only [assocGet, List.find?, decide_eq_false hq] at h
      exact List.mem_cons_of_mem _ (ih h)

/-! ### Behavior of link discovery -/

theorem processLinks_fields (cfg : Config) (u : String) (d : Nat) (hs : List String)
    (eng : Engine) :
    (processLinks cfg u d hs eng).crawledUrls = eng.crawledUrls ∧
    (processLinks cfg u d hs eng).indexData = eng.indexData ∧
    (processLinks cfg u d hs eng).fetchLog = eng.fetchLog ∧
    (processLinks cfg u d hs eng).hostLastRequestTime = eng.hostLastRequestTime ∧
    (processLinks cfg u d hs eng).robotsCache = eng.robotsCache ∧
    (processLinks cfg u d hs eng).dequeueLog = eng.dequeueLog ∧
    (processLinks cfg u d hs eng).clock = eng.clock := by
  induction hs generalizing eng with
  | nil => simp [processLinks]
  | cons h rest ih =>
    simp only [processLinks, List.foldl_cons] at *
    split
    · split
      · exact ih _
      · exact ih _
    · exact ih _

theorem processLinks_queue (cfg : Config) (u : String) (d : Nat) (hs : List String)
    (eng : Engine) :
    ∀ e ∈ (processLinks cfg u d hs eng).toCrawlQueue,
      e ∈ eng.toCrawlQueue ∨
        (is_valid cfg e.1 = true ∧ e.2 = d + 1 ∧ d + 1 ≤ cfg.maxDepth) := by
  induction hs generalizing eng with
  | nil => intro e he; exact Or.inl he
  | cons h rest ih =>
    intro e he
    simp only [processLinks, List.foldl_cons] at he
    split at he
    · split at he
      · rcases ih _ e he with h1 | h1
        · rcases mem_of_mem_pairInsert h1 with h2 | h2
          · exact Or.inl h2
          · subst h2
            rename_i hval hcond
            exact Or.inr ⟨hval, rfl, hcond.2⟩
        · exact Or.inr h1
      · exact ih _ e he
    · exact ih _ e he

/-! ### Case analyses of the pipeline segments -/

theorem issueFetch_def (cfg : Config) (t : Nat) (eng : Engine) (tk : TaskState) :
    issueFetch cfg t eng tk =
      ({ eng with
          hostLastRequestTime := assocSet eng.hostLastRequestTime (urlparse tk.url).netloc t
          crawledUrls := setInsert eng.crawledUrls tk.url
          fetchLog := eng.fetchLog ++ [(tk.url, (urlparse tk.url).netloc, t)] },
       { tk with pc := .pageWait, wake := t }) := rfl

theorem afterRobots_cases (cfg : Config) (parser : RobotFileParser) (t : Nat)
    (eng : Engine) (tk : TaskState) :
    (¬ parser.canFetch (userAgentToken cfg) tk.url = true ∧
      afterRobots cfg parser t eng tk =
        ({ eng with crawledUrls := setInsert eng.crawledUrls tk.url },
         { tk with pc := .finished })) ∨
    (t - (assocGet eng.hostLastRequestTime (urlparse tk.url).netloc).getD 0 <
        cfg.minDelaySeconds ∧
      afterRobots cfg parser t eng tk =
        (eng,
         { tk with
            pc := .sleepWait
            wake := t + (cfg.minDelaySeconds -
              (t - (assocGet eng.hostLastRequestTime (urlparse tk.url).netloc).getD 0)) })) ∨
    (¬ t - (assocGet eng.hostLastRequestTime (urlparse tk.url).netloc).getD 0 <
        cfg.minDelaySeconds ∧
      afterRobots cfg parser t eng tk = issueFetch cfg t eng tk) := by
  simp only [afterRobots, rateAndFetch]
  split
  · exact Or.inl ⟨by assumption, rfl⟩
  · split
    · exact Or.inr (Or.inl ⟨by assumption, rfl⟩)
    · exact Or.inr (Or.inr ⟨by assumption, rfl⟩)

theorem startSeg_cases (cfg : Config) (t : Nat) (eng : Engine) (tk : TaskState) :
    (startSeg cfg t eng tk = (eng, { tk with pc := .finished })) ∨
    (eng.crawledUrls.length < cfg.maxPages ∧ tk.url ∉ eng.crawledUrls ∧
      tk.depth ≤ cfg.maxDepth ∧
      ((∃ parser, assocGet eng.robotsCache (urlparse tk.url).netloc = some parser ∧
          startSeg cfg t eng tk = afterRobots cfg parser t eng tk) ∨
       (assocGet eng.robotsCache (urlparse tk.url).netloc = none ∧
          startSeg cfg t eng tk = (eng, { tk with pc := .robotsWait, wake := t })))) := by
  simp only [startSeg]
  split
  · exact Or.inl rfl
  · split
    · exact Or.inl rfl
    · split
      · exact Or.inl rfl
      · rename_i h1 h2 h3
        refine Or.inr ⟨by omega, h2, by omega, ?_⟩
        rcases hc : assocGet eng.robotsCache (urlparse tk.url).netloc with _ | parser
        · exact Or.inr ⟨rfl, by simp [hc]⟩
        · exact Or.inl ⟨parser, rfl, by simp [hc]⟩

theorem robotsResume_eq (cfg : Config) (web : Web) (t : Nat) (eng : Engine) (tk : TaskState) :
    robotsResume cfg web t eng tk =
      afterRobots cfg (robotsParserOf (web.robots (urlparse tk.url).netloc) t) t
        { eng with
            robotsCache := assocSet eng.robotsCache (urlparse tk.url).netloc
              (robotsParserOf (web.robots (urlparse tk.url).netloc) t) }
        tk := rfl

theorem pageResume_fields (cfg : Config) (web : Web) (eng : Engine) (tk : TaskState) :
    (pageResume cfg web eng tk).2 = { tk with pc := .finished } ∧
    (pageResume cfg web eng tk).1.crawledUrls = eng.crawledUrls ∧
    (pageResume cfg web eng tk).1.fetchLog = eng.fetchLog ∧
    (pageResume cfg web eng tk).1.hostLastRequestTime = eng.hostLastRequestTime ∧
    (pageResume cfg web eng tk).1.robotsCache = eng.robotsCache ∧
    (pageResume cfg web eng tk).1.dequeueLog = eng.dequeueLog ∧
    (pageResume cfg web eng tk).1.clock = eng.clock ∧
    (∀ r ∈ (pageResume cfg web eng tk).1.indexData,
       r ∈ eng.indexData ∨ (r.url = tk.url ∧ r.id = tk.url)) ∧
    (∀ e ∈ (pageResume cfg web eng tk).1.toCrawlQueue,
       e ∈ eng.toCrawlQueue ∨
         (is_valid cfg e.1 = true ∧ e.2 = tk.depth + 1 ∧ e.2 ≤ cfg.maxDepth)) := by
  unfold pageResume
  cases hp : web.page tk.url with
  | failure =>
    exact ⟨rfl, rfl, rfl, rfl, rfl, rfl, rfl,
      fun r hr => Or.inl hr, fun e he => Or.inl he⟩
  | ok ct doc =>
    simp only []
    split
    · refine ⟨?_, ?_, ?_, ?_, ?_, ?_, ?_, ?_, ?_⟩ <;>
        first
          | rfl
          | trivial
          | (intro x hx; exact Or.inl hx)
    · split
      · refine ⟨?_, ?_, ?_, ?_, ?_, ?_, ?_, ?_, ?_⟩ <;>
          first
            | rfl
            | trivial
            | (intro x hx; exact Or.inl hx)
      · rcases hcs : clean_and_summarize cfg doc with ⟨ex, soup1⟩
        simp only [hcs]
        have hf := processLinks_fields cfg tk.url tk.depth (linkHrefsNode soup1)
          { eng with
              indexData := eng.indexData ++
                [⟨tk.url, ex.title, ex.content, tk.url, ex.snippet⟩] }
        have hq := processLinks_queue cfg tk.url tk.depth (linkHrefsNode soup1)
          { eng with
              indexData := eng.indexData ++
                [⟨tk.url, ex.title, ex.content, tk.url, ex.snippet⟩] }
        refine ⟨?_, ?_, ?_, ?_, ?_, ?_, ?_, ?_, ?_⟩
        · first | rfl | trivial
        · exact hf.1
        · exact hf.2.2.1
        · exact hf.2.2.2.1
        · exact hf.2.2.2.2.1
        · exact hf.2.2.2.2.2.1
        · exact hf.2.2.2.2.2.2
        · intro r hr
          rw [hf.2.1] at hr
          simp only [List.mem_append, List.mem_singleton] at hr
          rcases hr with hr | hr
          · exact Or.inl hr
          · subst hr; exact Or.inr ⟨rfl, rfl⟩
        · intro e he
          rcases hq e he with h | h
          · exact Or.inl h
          · exact Or.inr ⟨h.1, h.2.1, by omega⟩

/-! ### One-step facts used by the run-level invariants -/

theorem stepPair_static (cfg : Config) (web : Web) (t : Nat) (eng : Engine) (tk : TaskState) :
    (stepPair cfg web t eng tk).2.url = tk.url ∧
    (stepPair cfg web t eng tk).2.depth = tk.depth ∧
    (stepPair cfg web t eng tk).1.dequeueLog = eng.dequeueLog ∧
    (∀ e ∈ (stepPair cfg web t eng tk).1.toCrawlQueue,
      e ∈ eng.toCrawlQueue ∨ (is_valid cfg e.1 = true ∧ e.2 ≤ cfg.maxDepth)) ∧
    (∀ r ∈ (stepPair cfg web t eng tk).1.indexData,
      r ∈ eng.indexData ∨ (r.url = tk.url ∧ r.id = tk.url)) := by
  cases hpc : tk.pc with
  | start =>
    simp only [stepPair, hpc]
    rcases startSeg_cases cfg (max t (max eng.clock tk.wake)) eng tk with heq |
      ⟨hlen, hvis, hdep, ⟨parser, hp, heq⟩ | ⟨hc, heq⟩⟩
    · rw [heq]
      exact ⟨rfl, rfl, rfl, fun e he => Or.inl he, fun r hr => Or.inl hr⟩
    · rw [heq]
      rcases afterRobots_cases cfg parser (max t (max eng.clock tk.wake)) eng tk with
        ⟨_, heq2⟩ | ⟨_, heq2⟩ | ⟨_, heq2⟩ <;> rw [heq2]
      · exact ⟨rfl, rfl, rfl, fun e he => Or.inl he, fun r hr => Or.inl hr⟩
      · exact ⟨rfl, rfl, rfl, fun e he => Or.inl he, fun r hr => Or.inl hr⟩
      · rw [issueFetch_def]
        exact ⟨rfl, rfl, rfl, fun e he => Or.inl he, fun r hr => Or.inl hr⟩
    · rw [heq]
      exact ⟨rfl, rfl, rfl, fun e he => Or.inl he, fun r hr => Or.inl hr⟩
  | robotsWait =>
    simp only [stepPair, hpc, robotsResume_eq]
    rcases afterRobots_cases cfg
        (robotsParserOf (web.robots (urlparse tk.url).netloc) (max t (max eng.clock tk.wake)))
        (max t (max eng.clock tk.wake))
        { eng with
            robotsCache := assocSet eng.robotsCache (urlparse tk.url).netloc
              (robotsParserOf (web.robots (urlparse tk.url).netloc)
                (max t (max eng.clock tk.wake))) }
        tk with ⟨_, heq2⟩ | ⟨_, heq2⟩ | ⟨_, heq2⟩ <;> rw [heq2]
    · exact ⟨rfl, rfl, rfl, fun e he => Or.inl he, fun r hr => Or.inl hr⟩
    · exact ⟨rfl, rfl, rfl, fun e he => Or.inl he, fun r hr => Or.inl hr⟩
    · rw [issueFetch_def]
      exact ⟨rfl, rfl, rfl, fun e he => Or.inl he, fun r hr => Or.inl hr⟩
  | sleepWait =>
    simp only [stepPair, hpc, issueFetch_def]
    refine ⟨?_, ?_, ?_, ?_, ?_⟩ <;>
      first
        | rfl
        | trivial
        | (intro x hx; exact Or.inl hx)
  | pageWait =>
    simp only [stepPair, hpc]
    have hf := pageResume_fields cfg web eng tk
    rcases hcs : pageResume cfg web eng tk with ⟨eng1, tk1⟩
    rw [hcs] at hf
    refine ⟨?_, ?_, ?_, ?_, ?_⟩
    · rw [hf.1]
    · rw [hf.1]
    · exact hf.2.2.2.2.2.1
    · intro e he
      rcases hf.2.2.2.2.2.2.2.2 e he with h | h
      · exact Or.inl h
      · exact Or.inr ⟨h.1, by omega⟩
    · exact hf.2.2.2.2.2.2.2.1
  | finished =>
    simp only [stepPair, hpc]
    refine ⟨?_, ?_, ?_, ?_, ?_⟩ <;>
      first
        | rfl
        | trivial
        | (intro x hx; exact Or.inl hx)

theorem stepPair_pageWait_eq (cfg : Config) (web : Web) (t : Nat) (eng : Engine)
    (tk : TaskState) (h : tk.pc = .pageWait) :
    stepPair cfg web t eng tk =
      ({ (pageResume cfg web eng tk).1 with clock := max t (max eng.clock tk.wake) },
       (pageResume cfg web eng tk).2) := by
  simp only [stepPair, h]

theorem stepPair_fetchOnce (cfg : Config) (web : Web) (t : Nat) (eng : Engine)
    (tk : TaskState) (h1 : fetchOnceInv eng) (h2 : taskVisitInv eng tk) :
    fetchOnceInv (stepPair cfg web t eng tk).1 ∧
    taskVisitInv (stepPair cfg web t eng tk).1 (stepPair cfg web t eng tk).2 := by
  have hfetch : ∀ (eng1 : Engine) (t1 : Nat), tk.url ∉ eng.crawledUrls →
      eng1.fetchLog = eng.fetchLog → eng1.crawledUrls = eng.crawledUrls →
      fetchOnceInv ({ (issueFetch cfg t1 eng1 tk).1 with clock := t1 }) ∧
      taskVisitInv ({ (issueFetch cfg t1 eng1 tk).1 with clock := t1 })
        { tk with pc := .pageWait, wake := t1 } := by
    intro eng1 t1 hvis hlog hcr
    rw [issueFetch_def]
    refine ⟨⟨?_, ?_⟩, ?_⟩
    · show ((eng1.fetchLog ++ [(tk.url, (urlparse tk.url).netloc, t1)]).map
        (fun e => e.1)).Nodup
      rw [hlog, List.map_append, List.nodup_append]
      refine ⟨h1.1, by simp, ?_⟩
      intro a ha hb
      simp only [List.mem_map] at ha hb
      rcases ha with ⟨e, he, hae⟩
      rcases hb with ⟨e2, he2, hae2⟩
      simp only [List.mem_singleton] at he2
      have ha1 : a ∈ eng.crawledUrls := by rw [← hae]; exact h1.2 e he
      rw [he2] at hae2
      rw [← hae2] at ha1
      exact hvis ha1
    · intro e he
      have he2 : e ∈ eng1.fetchLog ++ [(tk.url, (urlparse tk.url).netloc, t1)] := he
      show e.1 ∈ setInsert eng1.crawledUrls tk.url
      rw [hlog] at he2
      rcases List.mem_append.mp he2 with h3 | h3
      · refine mem_setInsert_of_mem _ ?_
        rw [hcr]
        exact h1.2 e h3
      · simp only [List.mem_singleton] at h3
        rw [h3]
        exact mem_setInsert_self _ _
    · intro hx
      rcases hx with hx | hx <;> exact TaskPC.noConfusion hx
  cases hpc : tk.pc with
  | start =>
    simp only [stepPair, hpc]
    rcases startSeg_cases cfg (max t (max eng.clock tk.wake)) eng tk with heq |
      ⟨hlen, hvis, hdep, ⟨parser, hp, heq⟩ | ⟨hc, heq⟩⟩
    · rw [heq]
      refine ⟨h1, ?_⟩
      intro hx
      rcases hx with hx | hx <;> exact TaskPC.noConfusion hx
    · rw [heq]
      rcases afterRobots_cases cfg parser (max t (max eng.clock tk.wake)) eng tk with
        ⟨_, heq2⟩ | ⟨_, heq2⟩ | ⟨_, heq2⟩ <;> rw [heq2]
      · refine ⟨⟨h1.1, ?_⟩, ?_⟩
        · intro e he
          exact mem_setInsert_of_mem _ (h1.2 e he)
        · intro hx
          rcases hx with hx | hx <;> exact TaskPC.noConfusion hx
      · exact ⟨h1, fun _ => hvis⟩
      · exact hfetch eng _ hvis rfl rfl
    · rw [heq]
      exact ⟨h1, fun _ => hvis⟩
  | robotsWait =>
    have hvis : tk.url ∉ eng.crawledUrls := h2 (Or.inl hpc)
    simp only [stepPair, hpc, robotsResume_eq]
    rcases afterRobots_cases cfg
        (robotsParserOf (web.robots (urlparse tk.url).netloc) (max t (max eng.clock tk.wake)))
        (max t (max eng.clock tk.wake))
        { eng with
            robotsCache := assocSet eng.robotsCache (urlparse tk.url).netloc
              (robotsParserOf (web.robots (urlparse tk.url).netloc)
                (max t (max eng.clock tk.wake))) }
        tk with ⟨_, heq2⟩ | ⟨_, heq2⟩ | ⟨_, heq2⟩ <;> rw [heq2]
    · refine ⟨⟨h1.1, ?_⟩, ?_⟩
      · intro e he
        exact mem_setInsert_of_mem _ (h1.2 e he)
      · intro hx
        rcases hx with hx | hx <;> exact TaskPC.noConfusion hx
    · exact ⟨h1, fun _ => hvis⟩
    · exact hfetch _ _ hvis rfl rfl
  | sleepWait =>
    have hvis : tk.url ∉ eng.crawledUrls := h2 (Or.inr hpc)
    simp only [stepPair, hpc]
    exact hfetch eng _ hvis rfl rfl
  | pageWait =>
    rw [stepPair_pageWait_eq cfg web t eng tk hpc]
    have hf := pageResume_fields cfg web eng tk
    refine ⟨⟨?_, ?_⟩, ?_⟩
    · show ((pageResume cfg web eng tk).1.fetchLog.map (fun e => e.1)).Nodup
      rw [hf.2.2.1]
      exact h1.1
    · intro e he
      have he2 : e ∈ (pageResume cfg web eng tk).1.fetchLog := he
      show e.1 ∈ (pageResume cfg web eng tk).1.crawledUrls
      rw [hf.2.2.1] at he2
      rw [hf.2.1]
      exact h1.2 e he2
    · intro hx
      have hx2 : (pageResume cfg web eng tk).2.pc = .robotsWait ∨
          (pageResume cfg web eng tk).2.pc = .sleepWait := hx
      rw [hf.1] at hx2
      rcases hx2 with hx2 | hx2 <;> exact TaskPC.noConfusion hx2
  | finished =>
    simp only [stepPair, hpc]
    refine ⟨h1, ?_⟩
    intro hx
    rw [hpc] at hx
    rcases hx with hx | hx <;> exact TaskPC.noConfusion hx

/-! ### Invariant lifting along sequential executions -/

theorem stepsPair_preserve (cfg : Config) (web : Web) {P : Engine → Prop}
    {Q : Engine → TaskState → Prop}
    (hstep : ∀ t eng tk, P eng → Q eng tk →
      P (stepPair cfg web t eng tk).1 ∧
      Q (stepPair cfg web t eng tk).1 (stepPair cfg web t eng tk).2) :
    ∀ (ts : List Nat) (p : Engine × TaskState), P p.1 → Q p.1 p.2 →
      P (stepsPair cfg web ts p).1 ∧
      Q (stepsPair cfg web ts p).1 (stepsPair cfg web ts p).2 := by
  intro ts
  induction ts with
  | nil => intro p hP hQ; exact ⟨hP, hQ⟩
  | cons t ts ih =>
    intro p hP hQ
    have h := hstep t p.1 p.2 hP hQ
    exact ih (stepPair cfg web t p.1 p.2) h.1 h.2

theorem crawlSeq_preserve (cfg : Config) (web : Web) {P : Engine → Prop}
    {Q : Engine → TaskState → Prop}
    (hstep : ∀ t eng tk, P eng → Q eng tk →
      P (stepPair cfg web t eng tk).1 ∧
      Q (stepPair cfg web t eng tk).1 (stepPair cfg web t eng tk).2)
    (hstart : ∀ eng u d, Q eng ⟨u, d, .start, 0⟩) :
    ∀ (eng : Engine) (u : String) (d t1 t2 t3 t4 : Nat), P eng →
      P (crawlSeq cfg web eng u d t1 t2 t3 t4) := by
  intro eng u d t1 t2 t3 t4 hP
  exact (stepsPair_preserve cfg web hstep [t1, t2, t3, t4]
    (eng, ⟨u, d, .start, 0⟩) hP (hstart eng u d)).1

theorem runTasksSeq_preserve (cfg : Config) (web : Web) {P : Engine → Prop}
    {Q : Engine → TaskState → Prop}
    (hstep : ∀ t eng tk, P eng → Q eng tk →
      P (stepPair cfg web t eng tk).1 ∧
      Q (stepPair cfg web t eng tk).1 (stepPair cfg web t eng tk).2)
    (hstart : ∀ eng u d, Q eng ⟨u, d, .start, 0⟩) :
    ∀ (items : List ((String × Nat) × Nat × Nat × Nat × Nat)) (eng : Engine), P eng →
      P (runTasksSeq cfg web items eng) := by
  intro items
  induction items with
  | nil => intro eng hP; exact hP
  | cons it rest ih =>
    intro eng hP
    exact ih _ (crawlSeq_preserve cfg web hstep hstart eng it.1.1 it.1.2
      it.2.1 it.2.2.1 it.2.2.2.1 it.2.2.2.2 hP)

theorem stepPair_rate (cfg : Config) (web : Web) (t : Nat) (eng : Engine)
    (tk : TaskState) (h1 : rateInv cfg eng) (h2 : taskRateInv cfg eng tk) :
    rateInv cfg (stepPair cfg web t eng tk).1 ∧
    taskRateInv cfg (stepPair cfg web t eng tk).1 (stepPair cfg web t eng tk).2 := by
  have hclk : eng.clock ≤ max t (max eng.clock tk.wake) :=
    (le_max_left eng.clock tk.wake).trans (le_max_right t _)
  have hwak : tk.wake ≤ max t (max eng.clock tk.wake) :=
    (le_max_right eng.clock tk.wake).trans (le_max_right t _)
  have hfetch : ∀ (e1 : Engine) (t1 : Nat),
      sameHostSpaced cfg.minDelaySeconds e1.fetchLog →
      (∀ e ∈ e1.fetchLog, ∃ v, assocGet e1.hostLastRequestTime e.2.1 = some v ∧ e.2.2 ≤ v) →
      (∀ p ∈ e1.hostLastRequestTime, p.2 ≤ t1) →
      (assocGet e1.hostLastRequestTime (urlparse tk.url).netloc).getD 0 +
          cfg.minDelaySeconds ≤ t1 →
      rateInv cfg ({ (issueFetch cfg t1 e1 tk).1 with clock := t1 }) ∧
      taskRateInv cfg ({ (issueFetch cfg t1 e1 tk).1 with clock := t1 })
        { tk with pc := .pageWait, wake := t1 } := by
    intro e1 t1 hsp hlr hpast hmin
    rw [issueFetch_def]
    have hhost := (urlparse tk.url).netloc
    refine ⟨⟨?_, ?_, ?_⟩, ?_⟩
    · show sameHostSpaced cfg.minDelaySeconds
        (e1.fetchLog ++ [(tk.url, (urlparse tk.url).netloc, t1)])
      unfold sameHostSpaced at hsp ⊢
      rw [List.pairwise_append]
      refine ⟨hsp, by simp, ?_⟩
      intro a ha b hb
      simp only [List.mem_singleton] at hb
      subst hb
      intro hhosts
      rcases hlr a ha with ⟨v, hv, hav⟩
      rw [hhosts] at hv
      have : (assocGet e1.hostLastRequestTime (urlparse tk.url).netloc).getD 0 = v := by
        rw [hv]; rfl
      show a.2.2 + cfg.minDelaySeconds ≤ t1
      omega
    · intro e he
      have he2 : e ∈ e1.fetchLog ++ [(tk.url, (urlparse tk.url).netloc, t1)] := he
      show ∃ v, assocGet (assocSet e1.hostLastRequestTime (urlparse tk.url).netloc t1)
          e.2.1 = some v ∧ e.2.2 ≤ v
      rcases List.mem_append.mp he2 with h3 | h3
      · rcases hlr e h3 with ⟨v, hv, hev⟩
        by_cases hh : e.2.1 = (urlparse tk.url).netloc
        · refine ⟨t1, ?_, ?_⟩
          · rw [hh]; exact assocGet_assocSet_self _ _ _
          · rw [hh] at hv
            have hv0 : (assocGet e1.hostLastRequestTime (urlparse tk.url).netloc).getD 0 = v := by
              rw [hv]; rfl
            omega
        · exact ⟨v, by rw [assocGet_assocSet_ne _ _ _ _ hh]; exact hv, hev⟩
      · simp only [List.mem_singleton] at h3
        subst h3
        exact ⟨t1, assocGet_assocSet_self _ _ _, le_refl _⟩
    · intro p hp
      show p.2 ≤ t1
      rcases mem_assocSet p hp with h3 | h3
      · exact hpast p h3
      · rw [h3]
    · intro hx
      exact absurd hx (by simp)
  have hstatic : ∀ (e1 : Engine) (t1 : Nat),
      e1.fetchLog = eng.fetchLog → e1.hostLastRequestTime = eng.hostLastRequestTime →
      eng.clock ≤ t1 → rateInv cfg ({ e1 with clock := t1 }) := by
    intro e1 t1 hlg hlr hle
    refine ⟨?_, ?_, ?_⟩
    · show sameHostSpaced cfg.minDelaySeconds e1.fetchLog
      rw [hlg]; exact h1.1
    · intro e he
      have he2 : e ∈ e1.fetchLog := he
      rw [hlg] at he2
      show ∃ v, assocGet e1.hostLastRequestTime e.2.1 = some v ∧ e.2.2 ≤ v
      rw [hlr]
      exact h1.2.1 e he2
    · intro p hp
      have hp2 : p ∈ e1.hostLastRequestTime := hp
      rw [hlr] at hp2
      show p.2 ≤ t1
      exact le_trans (h1.2.2 p hp2) hle
  have hv0le : ∀ t1 : Nat, eng.clock ≤ t1 →
      (assocGet eng.hostLastRequestTime (urlparse tk.url).netloc).getD 0 ≤ t1 := by
    intro t1 hle
    rcases hg : assocGet eng.hostLastRequestTime (urlparse tk.url).netloc with _ | v
    · simp
    · have hmem : v ≤ eng.clock := h1.2.2 _ (assocGet_mem hg)
      simp only [Option.getD_some]
      omega
  have hnotsleep : ∀ (e1 : Engine) (w : Nat),
      taskRateInv cfg e1 { tk with pc := .finished, wake := w } ∧
      taskRateInv cfg e1 { tk with pc := .finished } ∧
      taskRateInv cfg e1 { tk with pc := .robotsWait, wake := w } := by
    intro e1 w
    refine ⟨?_, ?_, ?_⟩ <;> (intro hx; exact absurd hx (by simp))
  cases hpc : tk.pc with
  | start =>
    simp only [stepPair, hpc]
    rcases startSeg_cases cfg (max t (max eng.clock tk.wake)) eng tk with heq |
      ⟨hlen, hvis, hdep, ⟨parser, hp, heq⟩ | ⟨hc, heq⟩⟩
    · rw [heq]
      exact ⟨hstatic eng _ rfl rfl hclk, (hnotsleep _ 0).2.1⟩
    · rw [heq]
      rcases afterRobots_cases cfg parser (max t (max eng.clock tk.wake)) eng tk with
        ⟨_, heq2⟩ | ⟨hlt, heq2⟩ | ⟨hge, heq2⟩ <;> rw [heq2]
      · exact ⟨hstatic _ _ rfl rfl hclk, (hnotsleep _ 0).2.1⟩
      · refine ⟨hstatic eng _ rfl rfl hclk, ?_⟩
        intro _
        have hb : (assocGet eng.hostLastRequestTime (urlparse tk.url).netloc).getD 0 ≤
            max t (max eng.clock tk.wake) := hv0le _ hclk
        show (assocGet eng.hostLastRequestTime (urlparse tk.url).netloc).getD 0 +
            cfg.minDelaySeconds ≤
          max t (max eng.clock tk.wake) + (cfg.minDelaySeconds -
            (max t (max eng.clock tk.wake) -
              (assocGet eng.hostLastRequestTime (urlparse tk.url).netloc).getD 0))
        omega
      · refine hfetch eng _ h1.1 h1.2.1 (fun p hp => le_trans (h1.2.2 p hp) hclk) ?_
        have hb := hv0le _ hclk
        omega
    · rw [heq]
      exact ⟨hstatic eng _ rfl rfl hclk, (hnotsleep _ _).2.2⟩
  | robotsWait =>
    simp only [stepPair, hpc, robotsResume_eq]
    rcases afterRobots_cases cfg
        (robotsParserOf (web.robots (urlparse tk.url).netloc) (max t (max eng.clock tk.wake)))
        (max t (max eng.clock tk.wake))
        { eng with
            robotsCache := assocSet eng.robotsCache (urlparse tk.url).netloc
              (robotsParserOf (web.robots (urlparse tk.url).netloc)
                (max t (max eng.clock tk.wake))) }
        tk with ⟨_, heq2⟩ | ⟨hlt, heq2⟩ | ⟨hge, heq2⟩ <;> rw [heq2]
    · exact ⟨hstatic _ _ rfl rfl hclk, (hnotsleep _ 0).2.1⟩
    · refine ⟨hstatic _ _ rfl rfl hclk, ?_⟩
      intro _
      have hlt2 : max t (max eng.clock tk.wake) -
          (assocGet eng.hostLastRequestTime (urlparse tk.url).netloc).getD 0 <
            cfg.minDelaySeconds := hlt
      have hb : (assocGet eng.hostLastRequestTime (urlparse tk.url).netloc).getD 0 ≤
          max t (max eng.clock tk.wake) := hv0le _ hclk
      show (assocGet eng.hostLastRequestTime (urlparse tk.url).netloc).getD 0 +
          cfg.minDelaySeconds ≤
        max t (max eng.clock tk.wake) + (cfg.minDelaySeconds -
          (max t (max eng.clock tk.wake) -
            (assocGet eng.hostLastRequestTime (urlparse tk.url).netloc).getD 0))
      omega
    · refine hfetch _ _ h1.1 h1.2.1 (fun p hp => le_trans (h1.2.2 p hp) hclk) ?_
      have hge2 : ¬ max t (max eng.clock tk.wake) -
          (assocGet eng.hostLastRequestTime (urlparse tk.url).netloc).getD 0 <
            cfg.minDelaySeconds := hge
      have hb := hv0le _ hclk
      show (assocGet eng.hostLastRequestTime (urlparse tk.url).netloc).getD 0 +
          cfg.minDelaySeconds ≤ max t (max eng.clock tk.wake)
      omega
  | sleepWait =>
    simp only [stepPair, hpc]
    refine hfetch eng _ h1.1 h1.2.1 (fun p hp => le_trans (h1.2.2 p hp) hclk) ?_
    have hw := h2 hpc
    omega
  | pageWait =>
    rw [stepPair_pageWait_eq cfg web t eng tk hpc]
    have hf := pageResume_fields cfg web eng tk
    refine ⟨hstatic _ _ hf.2.2.1 hf.2.2.2.1 hclk, ?_⟩
    intro hx
    have hx2 : (pageResume cfg web eng tk).2.pc = .sleepWait := hx
    rw [hf.1] at hx2
    exact TaskPC.noConfusion hx2
  | finished =>
    simp only [stepPair, hpc]
    refine ⟨hstatic eng _ rfl rfl hclk, ?_⟩
    intro hx
    have hx2 : tk.pc = .sleepWait := hx
    rw [hpc] at hx2
    exact TaskPC.noConfusion hx2

theorem stepPair_pages (cfg : Config) (web : Web) (t : Nat) (eng : Engine)
    (tk : TaskState) (h1 : pagesInv cfg eng) (h2 : taskPagesInv cfg eng tk) :
    pagesInv cfg (stepPair cfg web t eng tk).1 ∧
    taskPagesInv cfg (stepPair cfg web t eng tk).1 (stepPair cfg web t eng tk).2 := by
  have hnot : ∀ (e1 : Engine) (w : Nat),
      taskPagesInv cfg e1 { tk with pc := .finished, wake := w } ∧
      taskPagesInv cfg e1 { tk with pc := .finished } ∧
      taskPagesInv cfg e1 { tk with pc := .pageWait, wake := w } := by
    intro e1 w
    refine ⟨?_, ?_, ?_⟩ <;> (intro hx; rcases hx with hx | hx <;> exact TaskPC.noConfusion hx)
  have hins : ∀ (n : Nat), eng.crawledUrls.length < cfg.maxPages →
      (setInsert eng.crawledUrls tk.url).length ≤ cfg.maxPages := by
    intro n hlt
    have := length_setInsert_le eng.crawledUrls tk.url
    omega
  cases hpc : tk.pc with
  | start =>
    simp only [stepPair, hpc]
    rcases startSeg_cases cfg (max t (max eng.clock tk.wake)) eng tk with heq |
      ⟨hlen, hvis, hdep, ⟨parser, hp, heq⟩ | ⟨hc, heq⟩⟩
    · rw [heq]
      exact ⟨h1, (hnot _ 0).2.1⟩
    · rw [heq]
      rcases afterRobots_cases cfg parser (max t (max eng.clock tk.wake)) eng tk with
        ⟨_, heq2⟩ | ⟨_, heq2⟩ | ⟨_, heq2⟩ <;> rw [heq2]
      · exact ⟨hins 0 hlen, (hnot _ 0).2.1⟩
      · exact ⟨h1, fun _ => hlen⟩
      · rw [issueFetch_def]
        exact ⟨hins 0 hlen, (hnot _ _).2.2⟩
    · rw [heq]
      exact ⟨h1, fun _ => hlen⟩
  | robotsWait =>
    have hlen : eng.crawledUrls.length < cfg.maxPages := h2 (Or.inl hpc)
    simp only [stepPair, hpc, robotsResume_eq]
    rcases afterRobots_cases cfg
        (robotsParserOf (web.robots (urlparse tk.url).netloc) (max t (max eng.clock tk.wake)))
        (max t (max eng.clock tk.wake))
        { eng with
            robotsCache := assocSet eng.robotsCache (urlparse tk.url).netloc
              (robotsParserOf (web.robots (urlparse tk.url).netloc)
                (max t (max eng.clock tk.wake))) }
        tk with ⟨_, heq2⟩ | ⟨_, heq2⟩ | ⟨_, heq2⟩ <;> rw [heq2]
    · exact ⟨hins 0 hlen, (hnot _ 0).2.1⟩
    · exact ⟨h1, fun _ => hlen⟩
    · rw [issueFetch_def]
      exact ⟨hins 0 hlen, (hnot _ _).2.2⟩
  | sleepWait =>
    have hlen : eng.crawledUrls.length < cfg.maxPages := h2 (Or.inr hpc)
    simp only [stepPair, hpc, issueFetch_def]
    exact ⟨hins 0 hlen, (hnot _ _).2.2⟩
  | pageWait =>
    rw [stepPair_pageWait_eq cfg web t eng tk hpc]
    have hf := pageResume_fields cfg web eng tk
    constructor
    · show (pageResume cfg web eng tk).1.crawledUrls.length ≤ cfg.maxPages
      rw [hf.2.1]
      exact h1
    · intro hx
      have hx2 : (pageResume cfg web eng tk).2.pc = .robotsWait ∨
          (pageResume cfg web eng tk).2.pc = .sleepWait := hx
      rw [hf.1] at hx2
      rcases hx2 with hx2 | hx2 <;> exact TaskPC.noConfusion hx2
  | finished =>
    simp only [stepPair, hpc]
    refine ⟨h1, ?_⟩
    intro hx
    have hx2 : tk.pc = .robotsWait ∨ tk.pc = .sleepWait := hx
    rw [hpc] at hx2
    rcases hx2 with hx2 | hx2 <;> exact TaskPC.noConfusion hx2

/-- A fetched HTML page whose canonical link resolves to an
already-visited URL different from its own terminates the pipeline at
the canonical check, leaving the engine untouched (crawler.py lines
190–197). -/
theorem pageResume_canonical_dup (cfg : Config) (web : Web) (eng : Engine)
    (tk : TaskState) (ct : String) (doc : Node) (href : String)
    (hweb : web.page tk.url = .ok ct doc)
    (hct : containsSub (strLower ct) "text/html" = true)
    (hcan : canonicalHrefOf doc = some href)
    (hne : href ≠ tk.url)
    (hmem : urljoin tk.url href ∈ eng.crawledUrls) :
    (pageResume cfg web eng tk).1 = eng ∧
    (pageResume cfg web eng tk).2 = { tk with pc := .finished } := by
  unfold pageResume
  rw [hweb]
  simp only [hcan, hct]
  rw [if_neg (by simp), if_pos (by simp [bne_iff_ne, hne, hmem])]
  exact ⟨rfl, rfl⟩

/-! ### Claim theorems -/

/-- Claim C2 (code bug): when the robots.txt GET fails or returns a
non-success status, the crawler caches the freshly constructed, never
parsed `RobotFileParser`; `can_fetch` on such a parser returns `False`
for every agent and URL (CPython treats an unread robots.txt as
denying), so the host is completely blocked instead of receiving the
permissive default the code's own comment announces. -/
theorem c2_unparsed_robots_denies_all :
    ∀ (t : Nat) (agent url : String),
      (robotsParserOf .failure t).canFetch agent url = false ∧
      (∀ (s : Nat) (body : List String), s ≠ 200 →
        (robotsParserOf (.response s body) t).canFetch agent url = false) := by
  intro t agent url
  constructor
  · rfl
  · intro s body hs
    show (if s = 200 then RobotFileParser.init.parse body t
          else RobotFileParser.init).canFetch agent url = false
    rw [if_neg hs]
    rfl

/-- Claim C2 witness: the denial at a concrete failing host response. -/
theorem c2_witness :
    (404 ≠ 200) ∧
    (robotsParserOf (.response 404 ["User-agent: *", "Allow: /"]) 5).canFetch
      "M/1.0" "http://h/page" = false :=
  ⟨by decide,
   (c2_unparsed_robots_denies_all 5 "M/1.0" "http://h/page").2 404
     ["User-agent: *", "Allow: /"] (by decide)⟩

/-- Claim C1 counterexample: two frontier entries carrying the same URL
at depths 0 and 1 run in the same batch; both pass the visited check
before either suspends in the robots GET, and both issue a page fetch
for that URL. -/
theorem c1_counterexample :
    ((runTrace hostConfig plainWeb
        ⟨initialEngine hostConfig, mkTasks [("http://h/a", 0), ("http://h/a", 1)]⟩
        [(0, 1), (1, 1), (0, 2), (1, 4)]).eng.fetchLog.map (fun e => e.1)) =
      ["http://h/a", "http://h/a"] ∧
    ¬ ((runTrace hostConfig plainWeb
        ⟨initialEngine hostConfig, mkTasks [("http://h/a", 0), ("http://h/a", 1)]⟩
        [(0, 1), (1, 1), (0, 2), (1, 4)]).eng.fetchLog.map (fun e => e.1)).Nodup := by
  constructor
  · decide
  · decide

/-- Claim C1 (amended): the visited check does precede the fetch and the
mark-visited mutation shares the fetch's synchronous segment, so when
pipelines run to completion one at a time no URL is ever fetched twice;
but the mark happens after the robots-fetch and rate-limit awaits, so
two concurrently interleaved pipeline instances for the same URL can
both fetch it. -/
theorem c1_amended :
    (∀ (cfg : Config) (web : Web)
        (items : List ((String × Nat) × Nat × Nat × Nat × Nat)),
      ((runTasksSeq cfg web items (initialEngine cfg)).fetchLog.map
        (fun e => e.1)).Nodup) ∧
    (∀ (cfg : Config) (t : Nat) (eng : Engine) (tk : TaskState),
      tk.url ∈ (issueFetch cfg t eng tk).1.crawledUrls ∧
      (issueFetch cfg t eng tk).2.pc = .pageWait) := by
  constructor
  · intro cfg web items
    have h := @runTasksSeq_preserve cfg web fetchOnceInv taskVisitInv
      (fun t eng tk hP hQ => stepPair_fetchOnce cfg web t eng tk hP hQ)
      (fun eng u d => by
        intro hx
        rcases hx with hx | hx <;> exact TaskPC.noConfusion hx)
      items (initialEngine cfg)
      (by constructor <;> simp [fetchOnceInv, initialEngine])
    exact h.1
  · intro cfg t eng tk
    rw [issueFetch_def]
    exact ⟨mem_setInsert_self _ _, rfl⟩

/-- Claim C4 counterexample: three same-host entries in one batch; the
first records its fetch, the other two read the stale timestamp, sleep
the same interval, wake together and fetch simultaneously — two fetches
to host `h` zero seconds apart. -/
theorem c4_counterexample :
    (runTrace hostConfig plainWeb
        ⟨initialEngine hostConfig,
         mkTasks [("http://h/a", 0), ("http://h/b", 0), ("http://h/c", 0)]⟩
        [(0, 1), (1, 1), (2, 1), (0, 2), (1, 2), (2, 2), (1, 4), (2, 4)]).eng.fetchLog =
      [("http://h/a", "h", 2), ("http://h/b", "h", 4), ("http://h/c", "h", 4)] ∧
    ¬ sameHostSpaced hostConfig.minDelaySeconds
      (runTrace hostConfig plainWeb
        ⟨initialEngine hostConfig,
         mkTasks [("http://h/a", 0), ("http://h/b", 0), ("http://h/c", 0)]⟩
        [(0, 1), (1, 1), (2, 1), (0, 2), (1, 2), (2, 2), (1, 4), (2, 4)]).eng.fetchLog := by
  constructor
  · decide
  · intro h
    unfold sameHostSpaced at h
    have hlog : (runTrace hostConfig plainWeb
        ⟨initialEngine hostConfig,
         mkTasks [("http://h/a", 0), ("http://h/b", 0), ("http://h/c", 0)]⟩
        [(0, 1), (1, 1), (2, 1), (0, 2), (1, 2), (2, 2), (1, 4), (2, 4)]).eng.fetchLog =
      [("http://h/a", "h", 2), ("http://h/b", "h", 4), ("http://h/c", "h", 4)] := by decide
    rw [hlog] at h
    have h2 := (List.pairwise_cons.mp (List.pairwise_cons.mp h).2).1
      ("http://h/c", "h", 4) (by simp) rfl
    exact absurd (show (4 : Nat) + 2 ≤ 4 from h2) (by omega)

/-- Claim C4 (amended): when same-host pipelines do not overlap
(sequential execution) any two fetches to one host are at least
`MIN_DELAY_SECONDS` apart; but the last-request timestamp is recorded
only after the rate-limit sleep, so concurrent same-host tasks that
both enter the sleep can fetch closer together, even simultaneously. -/
theorem c4_amended :
    ∀ (cfg : Config) (web : Web)
      (items : List ((String × Nat) × Nat × Nat × Nat × Nat)),
      sameHostSpaced cfg.minDelaySeconds
        (runTasksSeq cfg web items (initialEngine cfg)).fetchLog := by
  intro cfg web items
  have h := @runTasksSeq_preserve cfg web (rateInv cfg) (taskRateInv cfg)
    (fun t eng tk hP hQ => stepPair_rate cfg web t eng tk hP hQ)
    (fun eng u d => by intro hx; exact TaskPC.noConfusion hx)
    items (initialEngine cfg)
    (by
      refine ⟨List.Pairwise.nil, ?_, ?_⟩
      · intro e he
        simp [initialEngine] at he
      · intro p hp
        simp [initialEngine] at hp)
  exact h.1

/-- Claim C6 counterexample: a completed run (`maxPages = 2`) in which
the seed's two links are dequeued in one batch; both pass the stale
limit check before suspending in the rate-limit sleep, and the visited
set ends with 3 URLs, exceeding `MAX_PAGES`. -/
theorem c6_counterexample :
    limitConfig.maxPages = 2 ∧
    (run_crawler limitConfig limitWeb 4
        [ [(0, 1), (0, 2), (0, 3)],
          [(0, 3), (1, 3), (2, 3), (1, 5), (2, 5), (1, 6), (2, 6)] ]).crawledUrls.length =
      3 := by
  constructor
  · decide
  · decide

/-- Claim C6 (amended): the limit check opens every pipeline and a task
beginning at the limit performs nothing, and the batch loop stops at the
limit; under sequential execution `|VisitedSet|` never exceeds
`MAX_PAGES`.  However, concurrent tasks that passed the check before
suspending may each still add a URL, so a batch can push `|VisitedSet|`
past `MAX_PAGES` (by at most the batch size minus one). -/
theorem c6_amended :
    (∀ (cfg : Config) (t : Nat) (eng : Engine) (tk : TaskState),
      cfg.maxPages ≤ eng.crawledUrls.length →
      startSeg cfg t eng tk = (eng, { tk with pc := .finished })) ∧
    (∀ (cfg : Config) (web : Web) (fuel : Nat) (cq : List (String × Nat))
        (eng : Engine) (scheds : List (List (Nat × Nat))),
      cfg.maxPages ≤ eng.crawledUrls.length →
      runBatchLoop cfg web (fuel + 1) cq eng scheds = eng) ∧
    (∀ (cfg : Config) (web : Web)
        (items : List ((String × Nat) × Nat × Nat × Nat × Nat)),
      (runTasksSeq cfg web items (initialEngine cfg)).crawledUrls.length ≤
        cfg.maxPages) := by
  refine ⟨?_, ?_, ?_⟩
  · intro cfg t eng tk h
    simp only [startSeg]
    rw [if_pos h]
  · intro cfg web fuel cq eng scheds h
    simp only [runBatchLoop]
    rw [if_pos (Or.inr h)]
  · intro cfg web items
    have h := @runTasksSeq_preserve cfg web (pagesInv cfg) (taskPagesInv cfg)
      (fun t eng tk hP hQ => stepPair_pages cfg web t eng tk hP hQ)
      (fun eng u d => by
        intro hx
        rcases hx with hx | hx <;> exact TaskPC.noConfusion hx)
      items (initialEngine cfg)
      (by simp [pagesInv, initialEngine])
    exact h

/-- Claim C6 witness: the no-further-work guarantees applied at a
concrete saturated engine. -/
theorem c6_amended_witness :
    (limitConfig.maxPages ≤
        ({ initialEngine limitConfig with
            crawledUrls := ["http://h/", "http://h/b"] }).crawledUrls.length ∧
      startSeg limitConfig 9
          { initialEngine limitConfig with crawledUrls := ["http://h/", "http://h/b"] }
          ⟨"http://h/c", 1, .start, 0⟩ =
        ({ initialEngine limitConfig with crawledUrls := ["http://h/", "http://h/b"] },
         { url := "http://h/c", depth := 1, pc := .finished, wake := 0 })) ∧
    (limitConfig.maxPages ≤
        ({ initialEngine limitConfig with
            crawledUrls := ["http://h/", "http://h/b"] }).crawledUrls.length ∧
      runBatchLoop limitConfig limitWeb 1 [("http://h/c", 1)]
          { initialEngine limitConfig with crawledUrls := ["http://h/", "http://h/b"] }
          [] =
        { initialEngine limitConfig with crawledUrls := ["http://h/", "http://h/b"] }) :=
  ⟨⟨by decide,
    c6_amended.1 limitConfig 9
      { initialEngine limitConfig with crawledUrls := ["http://h/", "http://h/b"] }
      ⟨"http://h/c", 1, .start, 0⟩ (by decide)⟩,
   ⟨by decide,
    c6_amended.2.1 limitConfig limitWeb 0 [("http://h/c", 1)]
      { initialEngine limitConfig with crawledUrls := ["http://h/", "http://h/b"] }
      [] (by decide)⟩⟩

/-- Claim C3 counterexample: a complete run in which `/B`'s canonical
target `/A` is already visited.  `/B` is fetched and produces no record
(that part of the claim holds), but its in-scope, unvisited,
depth-respecting link `/C` is never enqueued either: the pipeline
returns at the canonical check before link discovery. -/
theorem c3_counterexample :
    is_valid canonConfig "http://h/C" = true ∧
    "http://h/B" ∈ (run_crawler canonConfig canonWeb 3
        [ [(0, 1), (0, 2), (0, 3)], [(0, 3), (1, 3), (1, 5), (1, 6)] ]).crawledUrls ∧
    "http://h/C" ∉ (run_crawler canonConfig canonWeb 3
        [ [(0, 1), (0, 2), (0, 3)], [(0, 3), (1, 3), (1, 5), (1, 6)] ]).crawledUrls ∧
    1 + 1 ≤ canonConfig.maxDepth ∧
    (run_crawler canonConfig canonWeb 3
        [ [(0, 1), (0, 2), (0, 3)], [(0, 3), (1, 3), (1, 5), (1, 6)] ]).indexData.map
      (fun r => r.url) = ["http://h/A"] ∧
    ("http://h/C", 2) ∉ (run_crawler canonConfig canonWeb 3
        [ [(0, 1), (0, 2), (0, 3)], [(0, 3), (1, 3), (1, 5), (1, 6)] ]).toCrawlQueue := by
  refine ⟨by decide, by decide, by decide, by decide, by decide, by decide⟩

/-- Claim C3 (amended): a fetched HTML page whose declared canonical
link resolves to an already-visited URL different from its own produces
no PageRecord and performs no link discovery either: the pipeline
terminates at the canonical check, leaving the whole engine state
untouched. -/
theorem c3_amended :
    ∀ (cfg : Config) (web : Web) (eng : Engine) (tk : TaskState) (ct : String)
      (doc : Node) (href : String),
      web.page tk.url = .ok ct doc →
      containsSub (strLower ct) "text/html" = true →
      canonicalHrefOf doc = some href →
      href ≠ tk.url →
      urljoin tk.url href ∈ eng.crawledUrls →
      (pageResume cfg web eng tk).1 = eng ∧
      (pageResume cfg web eng tk).2 = { tk with pc := .finished } := by
  intro cfg web eng tk ct doc href hweb hct hcan hne hmem
  exact pageResume_canonical_dup cfg web eng tk ct doc href hweb hct hcan hne hmem

/-- Claim C3 witness: the amended behavior at the concrete `/B` page of
the counterexample scenario. -/
theorem c3_amended_witness :
    (canonWeb.page "http://h/B" =
        .ok "text/html" (.elem "html" [] [
          .elem "head" [] [ .elem "link" [("rel", "canonical"), ("href", "/A")] [] ],
          .elem "body" [] [ .elem "a" [("href", "/C")] [ .text "C" ] ] ]) ∧
      canonicalHrefOf (.elem "html" [] [
          .elem "head" [] [ .elem "link" [("rel", "canonical"), ("href", "/A")] [] ],
          .elem "body" [] [ .elem "a" [("href", "/C")] [ .text "C" ] ] ]) = some "/A") ∧
    (pageResume canonConfig canonWeb
        { initialEngine canonConfig with crawledUrls := ["http://h/A"] }
        ⟨"http://h/B", 1, .pageWait, 0⟩).1 =
      { initialEngine canonConfig with crawledUrls := ["http://h/A"] } :=
  ⟨⟨by rfl, by decide⟩,
   (c3_amended canonConfig canonWeb
      { initialEngine canonConfig with crawledUrls := ["http://h/A"] }
      ⟨"http://h/B", 1, .pageWait, 0⟩ "text/html"
      (.elem "html" [] [
        .elem "head" [] [ .elem "link" [("rel", "canonical"), ("href", "/A")] [] ],
        .elem "body" [] [ .elem "a" [("href", "/C")] [ .text "C" ] ] ])
      "/A" (by rfl) (by decide) (by decide) (by decide) (by decide)).1⟩

/-- Claim C10: a task suspended at the page GET always has its own URL
already in `crawled_urls` (the insertion happens in the same synchronous
segment that issues the fetch, before the canonical check); therefore a
page whose canonical href differs textually from the page's URL but
resolves to that same URL via `urljoin` is treated as a canonical
duplicate: the pipeline returns at the canonical check and no PageRecord
is produced. -/
theorem c10_self_canonical_skipped :
    (∀ (cfg : Config) (web : Web) (t : Nat) (eng : Engine) (tk : TaskState),
      (stepPair cfg web t eng tk).2.pc = .pageWait →
      tk.url ∈ (stepPair cfg web t eng tk).1.crawledUrls) ∧
    (∀ (cfg : Config) (web : Web) (eng : Engine) (tk : TaskState) (ct : String)
        (doc : Node) (href : String),
      web.page tk.url = .ok ct doc →
      containsSub (strLower ct) "text/html" = true →
      canonicalHrefOf doc = some href →
      href ≠ tk.url →
      urljoin tk.url href = tk.url →
      tk.url ∈ eng.crawledUrls →
      (pageResume cfg web eng tk).1.indexData = eng.indexData ∧
      (pageResume cfg web eng tk).1 = eng) := by
  constructor
  · intro cfg web t eng tk hpw
    cases hpc : tk.pc with
    | start =>
      revert hpw
      simp only [stepPair, hpc]
      rcases startSeg_cases cfg (max t (max eng.clock tk.wake)) eng tk with heq |
        ⟨hlen, hvis, hdep, ⟨parser, hp, heq⟩ | ⟨hc, heq⟩⟩
      · rw [heq]
        intro hpw
        exact absurd hpw (by simp)
      · rw [heq]
        rcases afterRobots_cases cfg parser (max t (max eng.clock tk.wake)) eng tk with
          ⟨_, heq2⟩ | ⟨_, heq2⟩ | ⟨_, heq2⟩ <;> rw [heq2]
        · intro hpw
          exact absurd hpw (by simp)
        · intro hpw
          exact absurd hpw (by simp)
        · rw [issueFetch_def]
          intro _
          exact mem_setInsert_self _ _
      · rw [heq]
        intro hpw
        exact absurd hpw (by simp)
    | robotsWait =>
      revert hpw
      simp only [stepPair, hpc, robotsResume_eq]
      rcases afterRobots_cases cfg
          (robotsParserOf (web.robots (urlparse tk.url).netloc)
            (max t (max eng.clock tk.wake)))
          (max t (max eng.clock tk.wake))
          { eng with
              robotsCache := assocSet eng.robotsCache (urlparse tk.url).netloc
                (robotsParserOf (web.robots (urlparse tk.url).netloc)
                  (max t (max eng.clock tk.wake))) }
          tk with ⟨_, heq2⟩ | ⟨_, heq2⟩ | ⟨_, heq2⟩ <;> rw [heq2]
      · intro hpw
        exact absurd hpw (by simp)
      · intro hpw
        exact absurd hpw (by simp)
      · rw [issueFetch_def]
        intro _
        exact mem_setInsert_self _ _
    | sleepWait =>
      revert hpw
      simp only [stepPair, hpc, issueFetch_def]
      intro _
      exact mem_setInsert_self _ _
    | pageWait =>
      rw [stepPair_pageWait_eq cfg web t eng tk hpc] at hpw ⊢
      have hf := pageResume_fields cfg web eng tk
      have hpw2 : (pageResume cfg web eng tk).2.pc = .pageWait := hpw
      rw [hf.1] at hpw2
      exact absurd hpw2 (by simp)
    | finished =>
      revert hpw
      simp only [stepPair, hpc]
      intro hpw
      exact absurd hpw (by simp)
  · intro cfg web eng tk ct doc href hweb hct hcan hne hjoin hmem
    have hm2 : urljoin tk.url href ∈ eng.crawledUrls := by rw [hjoin]; exact hmem
    have h := pageResume_canonical_dup cfg web eng tk ct doc href hweb hct hcan hne hm2
    exact ⟨by rw [h.1], h.1⟩

/-- Claim C10 witness: the marking guarantee at a concrete sleeping task
and the canonical self-duplicate at the concrete page `http://h/a`
declaring canonical `/a`. -/
theorem c10_witness :
    ((stepPair hostConfig selfCanonWeb 5 (initialEngine hostConfig)
        ⟨"http://h/a", 0, .sleepWait, 3⟩).2.pc = .pageWait ∧
      "http://h/a" ∈ (stepPair hostConfig selfCanonWeb 5 (initialEngine hostConfig)
        ⟨"http://h/a", 0, .sleepWait, 3⟩).1.crawledUrls) ∧
    ((pageResume hostConfig selfCanonWeb
        { initialEngine hostConfig with crawledUrls := ["http://h/a"] }
        ⟨"http://h/a", 0, .pageWait, 0⟩).1.indexData =
      ({ initialEngine hostConfig with crawledUrls := ["http://h/a"] } : Engine).indexData) :=
  ⟨⟨by decide,
    c10_self_canonical_skipped.1 hostConfig selfCanonWeb 5 (initialEngine hostConfig)
      ⟨"http://h/a", 0, .sleepWait, 3⟩ (by decide)⟩,
   (c10_self_canonical_skipped.2 hostConfig selfCanonWeb
      { initialEngine hostConfig with crawledUrls := ["http://h/a"] }
      ⟨"http://h/a", 0, .pageWait, 0⟩ "text/html" selfCanonDoc "/a"
      (by rfl) (by decide) (by decide) (by decide) (by decide) (by decide)).1⟩

/-- Claim C5 counterexample: a page with a description meta whose
`content` attribute is present but empty.  No description with
non-empty content exists, so the claim prescribes snippet =
trim(content[:N]) = "hello"; the code only tests attribute presence and
emits the empty snippet. -/
theorem c5_counterexample :
    (clean_and_summarize hostConfig emptyDescDoc).1.snippet = "" ∧
    (clean_and_summarize hostConfig emptyDescDoc).1.content = "hello" ∧
    strStrip ⟨"hello".data.take hostConfig.snippetLength⟩ = "hello" ∧
    (clean_and_summarize hostConfig emptyDescDoc).1.snippet ≠
      strStrip ⟨(clean_and_summarize hostConfig emptyDescDoc).1.content.data.take
        hostConfig.snippetLength⟩ := by
  refine ⟨by decide, by decide, by decide, by decide⟩

/-- Claim C5 (amended): the emitted snippet is the trimmed `content`
attribute of the first description meta element of the (noise-stripped)
returned document whenever that element carries the attribute — even
when its value is empty; only when no such attribute exists does the
snippet fall back to the trimmed first N characters of the content,
with the ellipsis marker appended iff the content is longer than N. -/
theorem c5_amended :
    ∀ (cfg : Config) (d : Node),
      (∀ c, metaDescContent (clean_and_summarize cfg d).2 = some c →
        (clean_and_summarize cfg d).1.snippet = strStrip c) ∧
      (metaDescContent (clean_and_summarize cfg d).2 = none →
        (clean_and_summarize cfg d).1.snippet =
          (if (clean_and_summarize cfg d).1.content.data.length > cfg.snippetLength
           then strStrip ⟨(clean_and_summarize cfg d).1.content.data.take cfg.snippetLength⟩
             ++ "..."
           else strStrip ⟨(clean_and_summarize cfg d).1.content.data.take
             cfg.snippetLength⟩)) := by
  intro cfg d
  have hsnip : (clean_and_summarize cfg d).1.snippet =
      (match metaDescContent (clean_and_summarize cfg d).2 with
       | some c => strStrip c
       | none =>
         let s := strStrip ⟨(clean_and_summarize cfg d).1.content.data.take cfg.snippetLength⟩
         if (clean_and_summarize cfg d).1.content.data.length > cfg.snippetLength
         then s ++ "..." else s) := rfl
  constructor
  · intro c hm
    rw [hsnip, hm]
  · intro hm
    rw [hsnip, hm]

/-- Claim C5 witness: both snippet branches at concrete pages. -/
theorem c5_amended_witness :
    (metaDescContent (clean_and_summarize hostConfig descDoc).2 = some "x" ∧
      (clean_and_summarize hostConfig descDoc).1.snippet = strStrip "x") ∧
    (metaDescContent (clean_and_summarize hostConfig noDescDoc).2 = none ∧
      (clean_and_summarize hostConfig noDescDoc).1.snippet =
        (if (clean_and_summarize hostConfig noDescDoc).1.content.data.length >
            hostConfig.snippetLength
         then strStrip ⟨(clean_and_summarize hostConfig noDescDoc).1.content.data.take
           hostConfig.snippetLength⟩ ++ "..."
         else strStrip ⟨(clean_and_summarize hostConfig noDescDoc).1.content.data.take
           hostConfig.snippetLength⟩)) :=
  ⟨⟨by decide, (c5_amended hostConfig descDoc).1 "x" (by decide)⟩,
   ⟨by decide, (c5_amended hostConfig noDescDoc).2 (by decide)⟩⟩

theorem mem_of_getElemOpt {α : Type} {l : List α} {n : Nat} {a : α}
    (h : l[n]? = some a) : a ∈ l := by
  rcases List.getElem?_eq_some.mp h with ⟨hn, rfl⟩
  exact List.getElem_mem _

theorem is_valid_netloc {cfg : Config} {u : String} (h : is_valid cfg u = true) :
    (urlparse u).netloc = targetDomain cfg := by
  simp only [is_valid] at h
  split at h
  · exact absurd h (by simp)
  · split at h
    · exact absurd h (by simp)
    · split at h
      · exact absurd h (by simp)
      · rename_i h3
        exact not_not.mp h3

theorem stepTask_traceInv (cfg : Config) (web : Web)
    {P : String × Nat → Prop} {W : String → Prop}
    (hPW : ∀ e : String × Nat, is_valid cfg e.1 = true → e.2 ≤ cfg.maxDepth → P e)
    (st : RunState) (tid t : Nat)
    (h : traceInv cfg P W st) :
    traceInv cfg P W (stepTask cfg web st tid t) := by
  unfold stepTask
  cases hx : st.tasks[tid]? with
  | none => exact h
  | some tk =>
    simp only []
    have htk : tk ∈ st.tasks := mem_of_getElemOpt hx
    have hs := stepPair_static cfg web t st.eng tk
    rcases hsp : stepPair cfg web t st.eng tk with ⟨eng1, tk1⟩
    rw [hsp] at hs
    refine ⟨?_, ?_, ?_, ?_⟩
    · intro e he
      have he2 : e ∈ eng1.toCrawlQueue := he
      rcases hs.2.2.2.1 e he2 with h2 | h2
      · exact h.1 e h2
      · exact hPW e h2.1 h2.2
    · intro e he
      have he2 : e ∈ eng1.dequeueLog := he
      rw [hs.2.2.1] at he2
      exact h.2.1 e he2
    · intro r hr
      have hr2 : r ∈ eng1.indexData := hr
      rcases hs.2.2.2.2 r hr2 with h2 | h2
      · exact h.2.2.1 r h2
      · have hw : W tk.url := h.2.2.2 tk htk
        rw [h2.1, h2.2]
        exact ⟨hw, hw⟩
    · intro tk2 htk2
      have htk3 : tk2 ∈ st.tasks.set tid tk1 := htk2
      rcases List.mem_or_eq_of_mem_set htk3 with h2 | h2
      · exact h.2.2.2 tk2 h2
      · rw [h2]
        show W tk1.url
        rw [show tk1.url = tk.url from hs.1]
        exact h.2.2.2 tk htk
  
theorem runTrace_traceInv (cfg : Config) (web : Web)
    {P : String × Nat → Prop} {W : String → Prop}
    (hPW : ∀ e : String × Nat, is_valid cfg e.1 = true → e.2 ≤ cfg.maxDepth → P e) :
    ∀ (sched : List (Nat × Nat)) (st : RunState), traceInv cfg P W st →
      traceInv cfg P W (runTrace cfg web st sched) := by
  intro sched
  induction sched with
  | nil => intro st h; exact h
  | cons s rest ih =>
    intro st h
    exact ih _ (stepTask_traceInv cfg web hPW _ s.1 s.2 h)

/-- The batch-loop invariant: `P` on the working queue and the engine
trace invariant (with an empty task list). -/
theorem runBatchLoop_inv (cfg : Config) (web : Web)
    {P : String × Nat → Prop} {W : String → Prop}
    (hPW : ∀ e : String × Nat, is_valid cfg e.1 = true → e.2 ≤ cfg.maxDepth → P e)
    (hpw : ∀ e : String × Nat, P e → W e.1) :
    ∀ (fuel : Nat) (cq : List (String × Nat)) (eng : Engine)
      (scheds : List (List (Nat × Nat))),
      (∀ e ∈ cq, P e) → traceInv cfg P W ⟨eng, []⟩ →
      traceInv cfg P W ⟨runBatchLoop cfg web fuel cq eng scheds, []⟩ := by
  intro fuel
  induction fuel with
  | zero => intro cq eng scheds hcq h; exact h
  | succ fuel ih =>
    intro cq eng scheds hcq h
    show traceInv cfg P W ⟨runBatchLoop cfg web (fuel + 1) cq eng scheds, []⟩
    rw [runBatchLoop]
    split
    · exact h
    · have hbatch : ∀ e ∈ cq.take 5, P e := fun e he => hcq e (List.mem_of_mem_take he)
      have htasks : ∀ tk ∈ mkTasks (cq.take 5), W tk.url := by
        intro tk htk
        unfold mkTasks at htk
        rcases List.mem_map.mp htk with ⟨e, he, rfl⟩
        exact hpw e (hbatch e he)
      have hde : traceInv cfg P W
          ⟨{ eng with dequeueLog := eng.dequeueLog ++ cq.take 5 }, mkTasks (cq.take 5)⟩ := by
        refine ⟨h.1, ?_, h.2.2.1, htasks⟩
        intro e he
        have he2 : e ∈ eng.dequeueLog ++ cq.take 5 := he
        rcases List.mem_append.mp he2 with h2 | h2
        · exact h.2.1 e h2
        · exact hbatch e h2
      have htr := runTrace_traceInv cfg web hPW (scheds.headD [])
        ⟨{ eng with dequeueLog := eng.dequeueLog ++ cq.take 5 }, mkTasks (cq.take 5)⟩ hde
      set st := runTrace cfg web
        ⟨{ eng with dequeueLog := eng.dequeueLog ++ cq.take 5 }, mkTasks (cq.take 5)⟩
        (scheds.headD []) with hst
      have hnew : ∀ e ∈ cq.drop 5 ++ st.eng.toCrawlQueue.filter
          (fun item => decide (item ∉ cq.drop 5)), P e := by
        intro e he
        rcases List.mem_append.mp he with h2 | h2
        · exact hcq e (List.mem_of_mem_drop h2)
        · exact htr.1 e (List.mem_of_mem_filter h2)
      refine ih _ _ _ hnew ⟨?_, htr.2.1, htr.2.2.1, ?_⟩
      · intro e he
        exact hnew e he
      · intro tk htk
        simp at htk
  

/-- Claim C7: every frontier entry ever dequeued by the batch loop has
depth at most `MAX_DEPTH`, and so does every entry in the frontier
itself: the seed enters at depth 0 and discovered links are enqueued at
`depth + 1` only under the explicit `new_depth <= MAX_DEPTH` guard. -/
theorem c7_depth_bound :
    ∀ (cfg : Config) (web : Web) (fuel : Nat) (scheds : List (List (Nat × Nat))),
      (∀ e ∈ (run_crawler cfg web fuel scheds).dequeueLog, e.2 ≤ cfg.maxDepth) ∧
      (∀ e ∈ (run_crawler cfg web fuel scheds).toCrawlQueue, e.2 ≤ cfg.maxDepth) := by
  intro cfg web fuel scheds
  have h := @runBatchLoop_inv cfg web (fun e => e.2 ≤ cfg.maxDepth) (fun _ => True)
    (fun _ _ hd => hd) (fun _ _ => trivial)
    fuel (initialEngine cfg).toCrawlQueue (initialEngine cfg) scheds
    (by
      intro e he
      have h2 : e = (cfg.targetRoot, 0) := by simpa [initialEngine] using he
      simp [h2])
    (by
      refine ⟨?_, ?_, ?_, ?_⟩
      · intro e he
        have h2 : e = (cfg.targetRoot, 0) := by simpa [initialEngine] using he
        simp [h2]
      · intro e he
        simp [initialEngine] at he
      · intro r hr
        simp [initialEngine] at hr
      · intro tk htk
        simp at htk)
  exact ⟨h.2.1, h.1⟩

/-- Claim C7 witness: the seed entry dequeued in a concrete run. -/
theorem c7_witness :
    (("http://h/", 0) ∈
      (run_crawler hostConfig plainWeb 1 [[(0, 1)]]).dequeueLog) ∧
    (("http://h/", 0) : String × Nat).2 ≤ hostConfig.maxDepth :=
  ⟨by decide,
   (c7_depth_bound hostConfig plainWeb 1 [[(0, 1)]]).1 ("http://h/", 0) (by decide)⟩

/-- Claim C8: every PageRecord appended to the index during a run has a
URL (and id) whose host equals the configured target domain exactly:
the seed's host is the target domain by construction, and every
discovered link passes `is_valid`'s exact netloc check before it can be
enqueued. -/
theorem c8_domain_scope :
    ∀ (cfg : Config) (web : Web) (fuel : Nat) (scheds : List (List (Nat × Nat)))
      (r : PageRecord), r ∈ (run_crawler cfg web fuel scheds).indexData →
      (urlparse r.url).netloc = targetDomain cfg ∧
      (urlparse r.id).netloc = targetDomain cfg := by
  intro cfg web fuel scheds r hr
  have h := @runBatchLoop_inv cfg web
    (fun e => (urlparse e.1).netloc = targetDomain cfg)
    (fun u => (urlparse u).netloc = targetDomain cfg)
    (fun _ hv _ => is_valid_netloc hv) (fun _ hp => hp)
    fuel (initialEngine cfg).toCrawlQueue (initialEngine cfg) scheds
    (by
      intro e he
      have h2 : e = (cfg.targetRoot, 0) := by simpa [initialEngine] using he
      rw [h2]
      rfl)
    (by
      refine ⟨?_, ?_, ?_, ?_⟩
      · intro e he
        have h2 : e = (cfg.targetRoot, 0) := by simpa [initialEngine] using he
        rw [h2]
        rfl
      · intro e he
        simp [initialEngine] at he
      · intro r2 hr2
        simp [initialEngine] at hr2
      · intro tk htk
        simp at htk)
  exact h.2.2.1 r hr

/-- Claim C8 witness: the record produced for the seed page in a
concrete run has the target host. -/
theorem c8_witness :
    ((⟨"http://h/", "Untitled Page", "", "http://h/", ""⟩ : PageRecord) ∈
      (run_crawler hostConfig plainWeb 1 [[(0, 1), (0, 2), (0, 3)]]).indexData) ∧
    (urlparse "http://h/").netloc = targetDomain hostConfig :=
  ⟨by decide,
   (c8_domain_scope hostConfig plainWeb 1 [[(0, 1), (0, 2), (0, 3)]]
     ⟨"http://h/", "Untitled Page", "", "http://h/", ""⟩ (by decide)).1⟩



theorem find_isSome_of_root {p : Node → Bool} {m : Node} (h : p m = true) :
    (findFirstNode p m).isSome = true := by
  cases m <;> simp [findFirstNode, h]

theorem findFirstList_cons_of_tail {p : Node → Bool} {x : Node} {ns : List Node}
    (h : (findFirstList p ns).isSome = true) :
    (findFirstList p (x :: ns)).isSome = true := by
  simp only [findFirstList]
  rcases hx : findFirstNode p x with _ | r
  · exact h
  · rfl

mutual

theorem strip_idem_node (L : List String) : (n : Node) →
    stripNode L (stripNode L n) = stripNode L n
  | .text _ => rfl
  | .elem t a c => by
    simp only [stripNode]
    rw [strip_idem_list L c]
termination_by structural n => n

theorem strip_idem_list (L : List String) : (l : List Node) →
    stripList L (stripList L l) = stripList L l
  | [] => rfl
  | .text s :: ns => by
    simp only [stripList]
    rw [strip_idem_list L ns]
  | .elem t a c :: ns => by
    simp only [stripList]
    by_cases h : L.contains t
    · rw [if_pos h]
      exact strip_idem_list L ns
    · rw [if_neg h]
      simp only [stripList, stripNode, if_neg h]
      have hh := strip_idem_node L (.elem t a c)
      simp only [stripNode] at hh
      rw [hh, strip_idem_list L ns]
termination_by structural l => l

end

mutual

theorem find_strip_isSome_node (L : List String) (p : Node → Bool)
    (hp : ∀ t a c c1, p (.elem t a c) = p (.elem t a c1)) : (n : Node) →
    (findFirstNode p (stripNode L n)).isSome = true →
    (findFirstNode p n).isSome = true
  | .text _ => fun h => h
  | .elem t a c => by
    intro h
    simp only [stripNode, findFirstNode] at h ⊢
    rw [hp t a (stripList L c) c] at h
    by_cases hroot : p (.elem t a c) = true
    · rw [if_pos hroot]
      rfl
    · rw [if_neg hroot] at h ⊢
      exact find_strip_isSome_list L p hp c h
termination_by structural n => n

theorem find_strip_isSome_list (L : List String) (p : Node → Bool)
    (hp : ∀ t a c c1, p (.elem t a c) = p (.elem t a c1)) : (l : List Node) →
    (findFirstList p (stripList L l)).isSome = true →
    (findFirstList p l).isSome = true
  | [] => fun h => h
  | .text s :: ns => by
    intro h
    simp only [stripList, findFirstList, findFirstNode] at h ⊢
    by_cases hroot : p (.text s) = true
    · rw [if_pos hroot]
      rfl
    · rw [if_neg hroot] at h ⊢
      exact find_strip_isSome_list L p hp ns h
  | .elem t a c :: ns => by
    intro h
    simp only [stripList] at h
    by_cases hn : L.contains t
    · rw [if_pos hn] at h
      exact findFirstList_cons_of_tail (find_strip_isSome_list L p hp ns h)
    · rw [if_neg hn] at h
      simp only [findFirstList] at h ⊢
      rcases hx : findFirstNode p (stripNode L (.elem t a c)) with _ | r
      · rw [hx] at h
        rcases hy : findFirstNode p (.elem t a c) with _ | r2
        · exact find_strip_isSome_list L p hp ns h
        · rfl
      · have h2 := find_strip_isSome_node L p hp (.elem t a c) (by rw [hx]; rfl)
        rcases hy : findFirstNode p (.elem t a c) with _ | r2
        · rw [hy] at h2
          exact absurd h2 (by simp)
        · rfl
termination_by structural l => l

end

theorem replaceFirstNode_pos (p : Node → Bool) (f : Node → Node) (n : Node)
    (h : p n = true) : replaceFirstNode p f n = f n := by
  cases n <;> simp [replaceFirstNode, h]

theorem replaceFirstNode_text_neg {p : Node → Bool} {f : Node → Node} {s : String}
    (h : ¬ p (.text s) = true) : replaceFirstNode p f (.text s) = .text s := by
  simp [replaceFirstNode, h]

theorem replaceFirstNode_elem_neg {p : Node → Bool} {f : Node → Node}
    {t : String} {a : List (String × String)} {c : List Node}
    (h : ¬ p (.elem t a c) = true) :
    replaceFirstNode p f (.elem t a c) = .elem t a (replaceFirstList p f c) := by
  simp [replaceFirstNode, h]

theorem findFirstList_cons_isSome (p : Node → Bool) (x : Node) (ns : List Node) :
    (findFirstList p (x :: ns)).isSome =
      ((findFirstNode p x).isSome || (findFirstList p ns).isSome) := by
  simp only [findFirstList]
  rcases hx : findFirstNode p x with _ | r
  · simp
  · simp

mutual

theorem find_replace_isSome_node (p : Node → Bool) (f : Node → Node)
    (hp : ∀ t a c c1, p (.elem t a c) = p (.elem t a c1))
    (hf : ∀ m, p (f m) = p m) : (n : Node) →
    (findFirstNode p (replaceFirstNode p f n)).isSome =
      (findFirstNode p n).isSome
  | .text s => by
    by_cases h : p (.text s) = true
    · rw [replaceFirstNode_pos p f _ h]
      rw [find_isSome_of_root (show p (f (.text s)) = true by rw [hf]; exact h)]
      rw [find_isSome_of_root h]
    · rw [replaceFirstNode_text_neg h]
  | .elem t a c => by
    by_cases h : p (.elem t a c) = true
    · rw [replaceFirstNode_pos p f _ h]
      rw [find_isSome_of_root (show p (f (.elem t a c)) = true by rw [hf]; exact h)]
      rw [find_isSome_of_root h]
    · rw [replaceFirstNode_elem_neg h]
      simp only [findFirstNode]
      rw [hp t a (replaceFirstList p f c) c]
      rw [if_neg h, if_neg h]
      exact find_replace_isSome_list p f hp hf c
termination_by structural n => n

theorem find_replace_isSome_list (p : Node → Bool) (f : Node → Node)
    (hp : ∀ t a c c1, p (.elem t a c) = p (.elem t a c1))
    (hf : ∀ m, p (f m) = p m) : (l : List Node) →
    (findFirstList p (replaceFirstList p f l)).isSome =
      (findFirstList p l).isSome
  | [] => rfl
  | x :: ns => by
    simp only [replaceFirstList]
    by_cases h : (findFirstNode p x).isSome = true
    · rw [if_pos h, findFirstList_cons_isSome, findFirstList_cons_isSome]
      rw [find_replace_isSome_node p f hp hf x]
    · rw [if_neg h, findFirstList_cons_isSome, findFirstList_cons_isSome]
      rw [find_replace_isSome_list p f hp hf ns]
termination_by structural l => l

end

mutual

theorem replace_comp_node (p : Node → Bool) (f : Node → Node)
    (hp : ∀ t a c c1, p (.elem t a c) = p (.elem t a c1))
    (hf : ∀ m, p (f m) = p m) (hff : ∀ m, f (f m) = f m) : (n : Node) →
    replaceFirstNode p f (replaceFirstNode p f n) = replaceFirstNode p f n
  | .text s => by
    by_cases h : p (.text s) = true
    · rw [replaceFirstNode_pos p f _ h]
      rw [replaceFirstNode_pos p f _ (show p (f (.text s)) = true by rw [hf]; exact h)]
      exact hff _
    · rw [replaceFirstNode_text_neg h, replaceFirstNode_text_neg h]
  | .elem t a c => by
    by_cases h : p (.elem t a c) = true
    · rw [replaceFirstNode_pos p f _ h]
      rw [replaceFirstNode_pos p f _ (show p (f (.elem t a c)) = true by rw [hf]; exact h)]
      exact hff _
    · rw [replaceFirstNode_elem_neg h]
      have h2 : ¬ p (.elem t a (replaceFirstList p f c)) = true := by
        rw [hp t a (replaceFirstList p f c) c]
        exact h
      rw [replaceFirstNode_elem_neg h2]
      rw [replace_comp_list p f hp hf hff c]
termination_by structural n => n

theorem replace_comp_list (p : Node → Bool) (f : Node → Node)
    (hp : ∀ t a c c1, p (.elem t a c) = p (.elem t a c1))
    (hf : ∀ m, p (f m) = p m) (hff : ∀ m, f (f m) = f m) : (l : List Node) →
    replaceFirstList p f (replaceFirstList p f l) = replaceFirstList p f l
  | [] => rfl
  | x :: ns => by
    simp only [replaceFirstList]
    by_cases h : (findFirstNode p x).isSome = true
    · rw [if_pos h]
      simp only [replaceFirstList]
      rw [if_pos (show (findFirstNode p (replaceFirstNode p f x)).isSome = true by
        rw [find_replace_isSome_node p f hp hf x]; exact h)]
      rw [replace_comp_node p f hp hf hff x]
    · rw [if_neg h]
      simp only [replaceFirstList]
      rw [if_neg h]
      rw [replace_comp_list p f hp hf hff ns]
termination_by structural l => l

end

mutual

theorem find_other_replace_node (p q : Node → Bool) (f : Node → Node)
    (hp : ∀ t a c c1, p (.elem t a c) = p (.elem t a c1))
    (hmono : ∀ m, (findFirstNode p (f m)).isSome = true →
      (findFirstNode p m).isSome = true) : (n : Node) →
    (findFirstNode p (replaceFirstNode q f n)).isSome = true →
    (findFirstNode p n).isSome = true
  | .text s => by
    by_cases h : q (.text s) = true
    · rw [replaceFirstNode_pos q f _ h]
      exact hmono _
    · rw [replaceFirstNode_text_neg h]
      exact fun h2 => h2
  | .elem t a c => by
    by_cases h : q (.elem t a c) = true
    · rw [replaceFirstNode_pos q f _ h]
      exact hmono _
    · rw [replaceFirstNode_elem_neg h]
      intro h2
      simp only [findFirstNode] at h2 ⊢
      rw [hp t a (replaceFirstList q f c) c] at h2
      by_cases hroot : p (.elem t a c) = true
      · rw [if_pos hroot]
        rfl
      · rw [if_neg hroot] at h2 ⊢
        exact find_other_replace_list p q f hp hmono c h2
termination_by structural n => n

theorem find_other_replace_list (p q : Node → Bool) (f : Node → Node)
    (hp : ∀ t a c c1, p (.elem t a c) = p (.elem t a c1))
    (hmono : ∀ m, (findFirstNode p (f m)).isSome = true →
      (findFirstNode p m).isSome = true) : (l : List Node) →
    (findFirstList p (replaceFirstList q f l)).isSome = true →
    (findFirstList p l).isSome = true
  | [] => fun h => h
  | x :: ns => by
    simp only [replaceFirstList]
    by_cases h : (findFirstNode q x).isSome = true
    · rw [if_pos h, findFirstList_cons_isSome, findFirstList_cons_isSome]
      simp only [Bool.or_eq_true]
      intro h2
      rcases h2 with h3 | h3
      · exact Or.inl (find_other_replace_node p q f hp hmono x h3)
      · exact Or.inr h3
    · rw [if_neg h, findFirstList_cons_isSome, findFirstList_cons_isSome]
      simp only [Bool.or_eq_true]
      intro h2
      rcases h2 with h3 | h3
      · exact Or.inl h3
      · exact Or.inr (find_other_replace_list p q f hp hmono ns h3)
termination_by structural l => l

end

theorem isBlockTag_children (t : String) (a : List (String × String))
    (c c1 : List Node) : isBlockTag (.elem t a c) = isBlockTag (.elem t a c1) := rfl

theorem isBodyTag_children (t : String) (a : List (String × String))
    (c c1 : List Node) : isBodyTag (.elem t a c) = isBodyTag (.elem t a c1) := rfl

theorem isBlockTag_strip (m : Node) :
    isBlockTag (stripNode noiseTags m) = isBlockTag m := by
  cases m <;> rfl

theorem isBodyTag_strip (m : Node) :
    isBodyTag (stripNode noiseTags m) = isBodyTag m := by
  cases m <;> rfl

theorem clean_snd_block {cfg : Config} {d b : Node}
    (h : findFirstNode isBlockTag d = some b) :
    (clean_and_summarize cfg d).2 =
      replaceFirstNode isBlockTag (stripNode noiseTags) d := by
  simp only [clean_and_summarize, h]

theorem clean_snd_body {cfg : Config} {d b : Node}
    (h1 : findFirstNode isBlockTag d = none)
    (h2 : findFirstNode isBodyTag d = some b) :
    (clean_and_summarize cfg d).2 =
      replaceFirstNode isBodyTag (stripNode noiseTags) d := by
  simp only [clean_and_summarize, h1, h2]

theorem clean_snd_none {cfg : Config} {d : Node}
    (h1 : findFirstNode isBlockTag d = none)
    (h2 : findFirstNode isBodyTag d = none) :
    (clean_and_summarize cfg d).2 = d := by
  simp only [clean_and_summarize, h1, h2]

theorem clean_snd_idem (cfg : Config) (d : Node) :
    (clean_and_summarize cfg (clean_and_summarize cfg d).2).2 =
      (clean_and_summarize cfg d).2 := by
  rcases hblk : findFirstNode isBlockTag d with _ | b
  · rcases hbody : findFirstNode isBodyTag d with _ | b
    · rw [clean_snd_none hblk hbody, clean_snd_none hblk hbody]
    · rw [clean_snd_body hblk hbody]
      have hblk2 : findFirstNode isBlockTag
          (replaceFirstNode isBodyTag (stripNode noiseTags) d) = none := by
        rcases hx : findFirstNode isBlockTag
            (replaceFirstNode isBodyTag (stripNode noiseTags) d) with _ | r
        · rfl
        · have h2 := find_other_replace_node isBlockTag isBodyTag
            (stripNode noiseTags) isBlockTag_children
            (fun m => find_strip_isSome_node noiseTags isBlockTag isBlockTag_children m)
            d (by rw [hx]; rfl)
          rw [hblk] at h2
          exact absurd h2 (by simp)
      have hbody2 : (findFirstNode isBodyTag
          (replaceFirstNode isBodyTag (stripNode noiseTags) d)).isSome = true := by
        rw [find_replace_isSome_node isBodyTag (stripNode noiseTags)
          isBodyTag_children isBodyTag_strip d, hbody]
        rfl
      rcases hx2 : findFirstNode isBodyTag
          (replaceFirstNode isBodyTag (stripNode noiseTags) d) with _ | r2
      · rw [hx2] at hbody2
        exact absurd hbody2 (by simp)
      · rw [clean_snd_body hblk2 hx2]
        exact replace_comp_node isBodyTag (stripNode noiseTags)
          isBodyTag_children isBodyTag_strip (strip_idem_node noiseTags) d
  · rw [clean_snd_block hblk]
    have hblk2 : (findFirstNode isBlockTag
        (replaceFirstNode isBlockTag (stripNode noiseTags) d)).isSome = true := by
      rw [find_replace_isSome_node isBlockTag (stripNode noiseTags)
        isBlockTag_children isBlockTag_strip d, hblk]
      rfl
    rcases hx : findFirstNode isBlockTag
        (replaceFirstNode isBlockTag (stripNode noiseTags) d) with _ | r
    · rw [hx] at hblk2
      exact absurd hblk2 (by simp)
    · rw [clean_snd_block hx]
      exact replace_comp_node isBlockTag (stripNode noiseTags)
        isBlockTag_children isBlockTag_strip (strip_idem_node noiseTags) d

/-- **C9** (corrected).  `clean_and_summarize` is NOT idempotent on the
`(title, content, snippet)` triple: the first run mutates the document
by decomposing noisy tags (including any `title` element nested inside
the searchable block), so a second run can read a different title — see
the counterexample.  What does hold, proved here: the document mutation
reaches a fixed point after one application
(`(clean_and_summarize cfg (clean_and_summarize cfg d).2).2
 = (clean_and_summarize cfg d).2`), hence from the second run on every
further run returns the identical `(title, content, snippet)` triple and
the identical document.  Purity holds trivially, `clean_and_summarize`
being a function of `(cfg, soup)` alone. -/
theorem c9_amended (cfg : Config) (d : Node) :
    (clean_and_summarize cfg (clean_and_summarize cfg d).2).2 =
      (clean_and_summarize cfg d).2 ∧
    clean_and_summarize cfg
        (clean_and_summarize cfg (clean_and_summarize cfg d).2).2 =
      clean_and_summarize cfg (clean_and_summarize cfg d).2 := by
  constructor
  · exact clean_snd_idem cfg d
  · rw [clean_snd_idem cfg d]

/-- **C9** counterexample: a page whose `title` element sits inside a
`form` in the body.  The first extraction reads title `"T"`, then
decomposes the `form` (removing the title); the second extraction on the
document left behind reads `"Untitled Page"`, so the two runs disagree
on the extracted triple. -/
theorem c9_counterexample :
    (clean_and_summarize hostConfig strippedTitleDoc).1.title = "T" ∧
    (clean_and_summarize hostConfig
        (clean_and_summarize hostConfig strippedTitleDoc).2).1.title =
      "Untitled Page" ∧
    (clean_and_summarize hostConfig strippedTitleDoc).1 ≠
      (clean_and_summarize hostConfig
        (clean_and_summarize hostConfig strippedTitleDoc).2).1 := by
  decide

end Crawler
